import Mathlib

/-
Verification of the strawhub CLI dependency-resolution and lockfile core.

Shallow embedding of:
  cli/src/strawhub/version_spec.py   (version / constraint model)
  cli/src/strawhub/lockfile.py       (reference-counted package ledger)
  cli/src/strawhub/resolver.py       (dependency resolver and installed index)
  cli/src/strawhub/errors.py         (error kinds)

Conventions:
  - Python dicts that preserve insertion order are modelled as association
    lists (List (key × value)); dict keys are unique in every state the
    program builds, which appears as a Nodup hypothesis where needed.
  - Fallible Python code (raise) is modelled with Except.
  - The recursive resolver is given an explicit fuel argument; fuel
    exhaustion is a distinguished error value that is proved unreachable
    for the fuel the top-level resolve function supplies.
  - Python regular expressions are modelled directly on character lists;
    re.match with a trailing dollar anchor accepts one optional trailing
    newline, which the model reproduces.
-/

namespace Strawhub

/-! ## Version and constraint model (version_spec.py) -/

/-- Parsed semantic version, from ParsedVersion in version_spec.py. -/
structure ParsedVersion where
  major : Nat
  minor : Nat
  patch : Nat
deriving DecidableEq, Repr

/-- Start code points of the aligned ten-character runs of Unicode decimal
digits (category Nd, Unicode 14.0.0 as bundled with CPython 3.11): in each
run the digit of value 0 comes first and values ascend by code point. A str
pattern \d matches exactly these characters. -/
def ndRunStarts : List Nat :=
  [0x30, 0x660, 0x6f0, 0x7c0, 0x966, 0x9e6, 0xa66, 0xae6, 0xb66, 0xbe6,
   0xc66, 0xce6, 0xd66, 0xde6, 0xe50, 0xed0, 0xf20, 0x1040, 0x1090, 0x17e0,
   0x1810, 0x1946, 0x19d0, 0x1a80, 0x1a90, 0x1b50, 0x1bb0, 0x1c40, 0x1c50,
   0xa620, 0xa8d0, 0xa900, 0xa9d0, 0xa9f0, 0xaa50, 0xabf0, 0xff10, 0x104a0,
   0x10d30, 0x11066, 0x110f0, 0x11136, 0x111d0, 0x112f0, 0x11450, 0x114d0,
   0x11650, 0x116c0, 0x11730, 0x118e0, 0x11950, 0x11c50, 0x11d50, 0x11da0,
   0x16a60, 0x16ac0, 0x16b50, 0x1d7ce, 0x1d7d8, 0x1d7e2, 0x1d7ec, 0x1d7f6,
   0x1e140, 0x1e2f0, 0x1e950, 0x1fbf0]

/-- The character class \d of a Python str pattern: any Unicode decimal
digit, ASCII 0-9 included. -/
def isPyDigit (c : Char) : Bool :=
  ndRunStarts.any (fun s => s ≤ c.toNat && c.toNat < s + 10)

/-- Decimal value of a Unicode decimal digit, as Python int() reads it: the
offset inside its aligned run. -/
def pyDigitVal (c : Char) : Nat :=
  match ndRunStarts.find? (fun s => s ≤ c.toNat && c.toNat < s + 10) with
  | some s => c.toNat - s
  | none => 0

/-- Numeric value of a run of decimal digits, as Python int() of the digit
run matched by \d+ (Unicode digits convert by their decimal value). -/
def digitsVal (ds : List Char) : Nat :=
  ds.foldl (fun n c => 10 * n + pyDigitVal c) 0

/-- The tail a Python dollar anchor accepts: end of string, or one final newline. -/
def dollarTail : List Char → Bool
  | [] => true
  | [c] => c == '\n'
  | _ => false

/-- Matcher for VERSION_REGEX = r"^(\d+)\.(\d+)\.(\d+)$" from version_spec.py,
returning the three digit groups. The dollar anchor follows Python semantics
(dollarTail). -/
def versionGroups (cs : List Char) : Option (List Char × List Char × List Char) :=
  let s1 := cs.span isPyDigit
  match s1.2 with
  | c1 :: rest1 =>
    if c1 = '.' then
      let s2 := rest1.span isPyDigit
      match s2.2 with
      | c2 :: rest2 =>
        if c2 = '.' then
          let s3 := rest2.span isPyDigit
          if s1.1.isEmpty || s2.1.isEmpty || s3.1.isEmpty || !dollarTail s3.2
          then none
          else some (s1.1, s2.1, s3.1)
        else none
      | _ => none
    else none
  | _ => none

/-- parse_version from version_spec.py: match VERSION_REGEX and convert the
three groups with int(); raise ValueError otherwise. -/
def parse_version (version : String) : Except String ParsedVersion :=
  match versionGroups version.toList with
  | some (d1, d2, d3) => .ok ⟨digitsVal d1, digitsVal d2, digitsVal d3⟩
  | none => .error ("Invalid version: " ++ version)

/-- compare_versions from version_spec.py. -/
def compare_versions (a b : ParsedVersion) : Int :=
  if a.major ≠ b.major then (if a.major < b.major then -1 else 1)
  else if a.minor ≠ b.minor then (if a.minor < b.minor then -1 else 1)
  else if a.patch ≠ b.patch then (if a.patch < b.patch then -1 else 1)
  else 0

/-- Operator of a dependency specifier: "latest", "==", ">=", "^". -/
inductive SpecOp where
  | latest
  | eq
  | ge
  | caret
deriving DecidableEq, Repr

/-- DependencySpec from version_spec.py. -/
structure DependencySpec where
  slug : String
  operator : SpecOp
  version : Option String
deriving DecidableEq, Repr

/-- satisfies_version from version_spec.py. Calls parse_version on both the
candidate and the required version, so it can raise ValueError. -/
def satisfies_version (candidate_version : String) (spec : DependencySpec) :
    Except String Bool :=
  match spec.operator, spec.version with
  | .latest, _ => .ok true
  | _, none => .ok true
  | op, some sv => do
    let candidate ← parse_version candidate_version
    let required ← parse_version sv
    match op with
    | .eq => .ok (compare_versions candidate required == 0)
    | .ge => .ok (decide (0 ≤ compare_versions candidate required))
    | .caret => .ok (candidate.major == required.major
        && decide (0 ≤ compare_versions candidate required))
    | .latest => .ok true

/-- Matcher for the version part of DIR_NAME_REGEX: the char list must be the
three digit groups joined by dots, followed by a dollar tail; returns the
version characters (group 2 of the regex, never containing the newline). -/
def matchVerTail (cs : List Char) : Option (List Char) :=
  match versionGroups cs with
  | some (d1, d2, d3) => some (d1 ++ '.' :: d2 ++ '.' :: d3)
  | none => none

/-- Matcher for DIR_NAME_REGEX = r"^(.+)-(\d+\.\d+\.\d+)$" with a possibly
empty greedy head: the head may not contain a newline (dot does not match
newline), and the split is at the last dash whose tail is a version.
Returns (head characters, version characters). -/
def matchDashVer : List Char → Option (List Char × List Char)
  | [] => none
  | c :: rest =>
    match (if c == '\n' then none
           else (matchDashVer rest).map (fun p => (c :: p.1, p.2))) with
    | some p => some p
    | none =>
      if c == '-' then (matchVerTail rest).map (fun v => (([] : List Char), v))
      else none

/-- parse_dir_name from version_spec.py; the group-1 head must be nonempty. -/
def parse_dir_name (name : String) : Option (String × String) :=
  match matchDashVer name.toList with
  | some (h, v) => if h.isEmpty then none else some (String.mk h, String.mk v)
  | none => none

/-! ## Lockfile (lockfile.py)

The on-disk path held by the Python object plays no role in the queries
modelled here and is omitted from the state. -/

/-- PackageRef from lockfile.py. -/
structure PackageRef where
  kind : String
  slug : String
  version : String
deriving DecidableEq, Repr

/-- PackageRef.key: "kind:slug:version". -/
def PackageRef.key (r : PackageRef) : String :=
  r.kind ++ ":" ++ r.slug ++ ":" ++ r.version

/-- One value of the packages dict: {"kind", "slug", "version", "dependents"}. -/
structure LockEntry where
  kind : String
  slug : String
  version : String
  dependents : List String
deriving DecidableEq, Repr

/-- In-memory lockfile state: direct_installs list and insertion-ordered
packages dict. -/
structure Lockfile where
  direct_installs : List PackageRef
  packages : List (String × LockEntry)
deriving DecidableEq, Repr

/-- Keys of a packages dict, in insertion order. -/
def packageKeys (ps : List (String × LockEntry)) : List String :=
  ps.map Prod.fst

/-- is_direct_install against an explicit direct-installs list:
any(r.key == key for r in self.direct_installs). -/
def is_direct_key (direct : List PackageRef) (key : String) : Bool :=
  direct.any (fun r => r.key == key)

/-- Lockfile.is_direct_install from lockfile.py. -/
def Lockfile.is_direct_install (lf : Lockfile) (key : String) : Bool :=
  is_direct_key lf.direct_installs key

/-- Lockfile.is_orphan from lockfile.py: key present, dependents list empty,
and not a direct install. -/
def Lockfile.is_orphan (lf : Lockfile) (package_key : String) : Bool :=
  match lf.packages.lookup package_key with
  | none => false
  | some pkg => pkg.dependents.isEmpty && !(lf.is_direct_install package_key)

/-- One for-loop pass of Lockfile.collect_orphans over the snapshot
list(remaining.keys()). kept holds the entries already visited and retained
this pass; the dict at the time an entry is examined is kept plus the entry
itself plus the unvisited rest. Returns (orphans found this pass in visit
order, dict after the pass). -/
def sweepPass (direct : List PackageRef) (kept : List (String × LockEntry)) :
    List (String × LockEntry) → List String × List (String × LockEntry)
  | [] => ([], kept)
  | (key, pkg) :: rest =>
    let remaining := packageKeys kept ++ key :: packageKeys rest
    let has_dependents := pkg.dependents.any (fun d => remaining.contains d)
    if !has_dependents && !is_direct_key direct key then
      let next := sweepPass direct kept rest
      (key :: next.1, next.2)
    else
      sweepPass direct (kept ++ [(key, pkg)]) rest

/-- The while-changed loop of Lockfile.collect_orphans. A pass that removes
nothing ends the loop; the fuel given by collect_orphans is enough for the
loop to always end on such a pass, since every other pass shrinks the dict. -/
def sweepIter (direct : List PackageRef) :
    Nat → List (String × LockEntry) → List String × List (String × LockEntry)
  | 0, remaining => ([], remaining)
  | fuel + 1, remaining =>
    let pass := sweepPass direct [] remaining
    if pass.1.isEmpty then ([], pass.2)
    else
      let next := sweepIter direct fuel pass.2
      (pass.1 ++ next.1, next.2)

/-- Lockfile.collect_orphans from lockfile.py: cascading sweep over a working
copy of packages. -/
def Lockfile.collect_orphans (lf : Lockfile) : List String :=
  (sweepIter lf.direct_installs (lf.packages.length + 1) lf.packages).1

/-- The collect_orphans method as a state transformer: the Python method
copies self.packages into the local dict remaining (remaining =
dict(self.packages)), mutates only that local and the local result list, and
returns the result, leaving self untouched. -/
def Lockfile.collect_orphans_method (lf : Lockfile) : List String × Lockfile :=
  let remaining := lf.packages
  let all_orphans := (sweepIter lf.direct_installs (remaining.length + 1) remaining).1
  (all_orphans, lf)

/-! ## Specification-side definitions for the lockfile claims

These are written from the specification text, to be compared with the
definitions above. -/

/-- An entry the specification's cascading sweep deletes in the current round:
not a direct install, and its dependents counted only among entries still
present in the working copy are all absent. -/
def spec_removable (direct : List PackageRef)
    (remaining : List (String × LockEntry)) (p : String × LockEntry) : Bool :=
  !is_direct_key direct p.1
    && p.2.dependents.all (fun d => !(packageKeys remaining).contains d)

/-- One round of the specification's sweep: delete every currently removable
entry at once. -/
def spec_step (direct : List PackageRef)
    (remaining : List (String × LockEntry)) : List (String × LockEntry) :=
  remaining.filter (fun p => !spec_removable direct remaining p)

/-- Repeat spec_step until a round removes nothing. -/
def spec_sweep (direct : List PackageRef) :
    Nat → List (String × LockEntry) → List (String × LockEntry)
  | 0, remaining => remaining
  | fuel + 1, remaining =>
    let next := spec_step direct remaining
    if next.length = remaining.length then remaining
    else spec_sweep direct fuel next

/-- The working copy left when the specification's cascading sweep stops. -/
def spec_final (direct : List PackageRef)
    (packages : List (String × LockEntry)) : List (String × LockEntry) :=
  spec_sweep direct packages.length packages

/-- A key the specification's cascading sweep eventually deletes. -/
def spec_eventually_removed (direct : List PackageRef)
    (packages : List (String × LockEntry)) (k : String) : Prop :=
  k ∈ packageKeys packages ∧ k ∉ packageKeys (spec_final direct packages)

/-- The specification's orphan invariant as a predicate on one key: the
dependents set restricted to keys still present in packages is empty, and the
key is not a direct install (spec section 3). -/
def spec_is_orphan (lf : Lockfile) (key : String) : Bool :=
  match lf.packages.lookup key with
  | none => false
  | some pkg =>
    (pkg.dependents.filter (fun d => (packageKeys lf.packages).contains d)).isEmpty
      && !(lf.is_direct_install key)

/-- A lockfile state with no dangling dependents: every listed dependent key
is itself present in packages (the invariant of spec section 3). -/
def NoDanglingDependents (lf : Lockfile) : Prop :=
  ∀ p ∈ lf.packages, ∀ d ∈ p.2.dependents, d ∈ packageKeys lf.packages

/-- An entry set that supports itself: every member is a direct install or has
a listed dependent among the set's own keys. The working copies that the
cascading sweeps can never shrink are exactly such sets. -/
def StableSet (direct : List PackageRef) (s : List (String × LockEntry)) : Prop :=
  ∀ p ∈ s, is_direct_key direct p.1 = true
    ∨ ∃ d ∈ p.2.dependents, d ∈ packageKeys s

/-! ## Lockfile.load (lockfile.py) and error kinds (errors.py)

Lockfile.load reads the file and calls json.loads; the filesystem and JSON
collaborators are modelled by the load input: none for a missing file, some
(.error msg) when json.loads raises json.JSONDecodeError (a ValueError), and
some (.ok data) for well-formed content. -/

/-- Error outcomes relevant to Lockfile.load. LockfileError exists in
errors.py ("Lockfile is corrupt or cannot be read/written") but nothing in
the code raises it; json.loads raises jsonDecodeError. -/
inductive LoadErr where
  | jsonDecodeError (msg : String)
  | lockfileError (msg : String)
deriving DecidableEq, Repr

/-- Well-formed parsed lockfile JSON: data.get("directInstalls", []) and
data.get("packages", {}) with their defaults. -/
structure LockfileJson where
  directInstalls : Option (List PackageRef)
  packages : Option (List (String × LockEntry))
deriving DecidableEq, Repr

/-- Lockfile.load from lockfile.py over the modelled file input. -/
def Lockfile.load (file : Option (Except String LockfileJson)) :
    Except LoadErr Lockfile :=
  match file with
  | none => .ok ⟨[], []⟩
  | some (.error msg) => .error (.jsonDecodeError msg)
  | some (.ok data) => .ok ⟨data.directInstalls.getD [], data.packages.getD []⟩

/-! ## Resolver (resolver.py) -/

/-- ResolvedPackage from resolver.py. -/
structure ResolvedPackage where
  kind : String
  slug : String
  version : String
  path : String
  source : String
deriving DecidableEq, Repr

/-- A (kind, slug) node identity. -/
abbrev PkgKey := String × String

/-- One index entry: (version, absolute path, scope). -/
abbrev IndexEntry3 := String × String × String

/-- The resolver's environment: the installed-package index, and the
dependency specs read from the chosen package's SKILL.md / ROLE.md
(_read_dependency_specs, whose frontmatter parsing is an external
collaborator); deps kind path lists the (dep_kind, spec) pairs declared by
the package of the given kind at the given path. -/
structure ResolverEnv where
  index : List (PkgKey × List IndexEntry3)
  deps : String → String → List (String × DependencySpec)

/-- index.get(key, []) over a raw index association list. -/
def indexFind (idx : List (PkgKey × List IndexEntry3)) (key : PkgKey) :
    List IndexEntry3 :=
  (idx.lookup key).getD []

/-- index.get(key, []). -/
def indexGet (env : ResolverEnv) (key : PkgKey) : List IndexEntry3 :=
  indexFind env.index key

/-- Errors the modelled resolver can produce. fuel and keyError are model
artifacts: fuel marks recursion-budget exhaustion (proved unreachable for the
budget resolve supplies), keyError marks the dead branch after a successful
recursion where the root key must be present. -/
inductive PyErr where
  | dependency (msg : String)
  | valueError (msg : String)
  | keyError
  | fuel
deriving DecidableEq, Repr

/-- Lift a ValueError-raising computation into the resolver's error type. -/
def liftValue {α : Type} : Except String α → Except PyErr α
  | .ok a => .ok a
  | .error m => .error (.valueError m)

/-- The filtering list comprehension over candidates: evaluate
satisfies_version left to right, raising its first ValueError, and keep the
entries it accepts. -/
def filterSat (c : DependencySpec) :
    List IndexEntry3 → Except PyErr (List IndexEntry3)
  | [] => .ok []
  | e :: rest => do
    let b ← liftValue (satisfies_version e.1 c)
    let r ← filterSat c rest
    .ok (if b then e :: r else r)

/-- Candidate filtering by the incoming constraint (resolver.py lines
114-119); satisfies_version may raise ValueError. -/
def filterCandidates (constraint : Option DependencySpec)
    (cands : List IndexEntry3) : Except PyErr (List IndexEntry3) :=
  match constraint with
  | none => .ok cands
  | some c => filterSat c cands

/-- The sort key evaluation of pkg_candidates.sort(key=lambda c:
parse_version(c[0])): each candidate version is parsed left to right, raising
ValueError on the first invalid one. -/
def checkParsable : List IndexEntry3 → Except PyErr (List ParsedVersion)
  | [] => .ok []
  | e :: rest => do
    let p ← liftValue (parse_version e.1)
    let r ← checkParsable rest
    .ok (p :: r)

/-- Total stand-in for the sort key once checkParsable has succeeded. -/
def pvOf (v : String) : ParsedVersion :=
  match parse_version v with
  | .ok p => p
  | .error _ => ⟨0, 0, 0⟩

/-- Comparator realizing the stable descending sort
pkg_candidates.sort(key=parse_version, reverse=True): x may precede y iff
key y is not above key x. The sort itself is modelled with the stable
insertion sort, whose output agrees with every stable sort, CPython's
included. -/
def versionDescLe (x y : IndexEntry3) : Bool :=
  decide (0 ≤ compare_versions (pvOf x.1) (pvOf y.1))

/-- The stable descending sort of the candidate list. -/
def sortCandidates (cands : List IndexEntry3) : List IndexEntry3 :=
  List.insertionSort (fun x y => versionDescLe x y = true) cands

/-- Message of the circular-dependency DependencyError. -/
def circularMsg (pkg_kind pkg_slug : String) : String :=
  "Circular dependency detected: " ++ pkg_kind ++ " " ++ pkg_slug

/-- Text of an optional constraint for the no-satisfying-version message. -/
def constraintText : Option DependencySpec → String
  | none => ""
  | some c =>
    match c.version with
    | none => ""
    | some v =>
      let op := match c.operator with
        | .latest => "latest"
        | .eq => "=="
        | .ge => ">="
        | .caret => "^"
      " " ++ op ++ v

/-- Message of the no-installed-version-satisfies DependencyError. -/
def noSatMsg (pkg_kind pkg_slug : String) (c : Option DependencySpec) : String :=
  "No installed version of " ++ pkg_kind ++ " " ++ pkg_slug
    ++ " satisfies " ++ pkg_slug ++ constraintText c

/-- resolve_pkg from resolver.py. The mutable resolved dict and visiting set
are threaded explicitly: visiting is the current recursion path (add before
recursing into dependencies, discard after, which is pushing onto the list
passed down), and the resolved dict grows by appending. Structural fuel
replaces Python's unbounded recursion; .error .fuel is unreachable for the
fuel resolve supplies. -/
def resolvePkg (env : ResolverEnv) :
    Nat → List PkgKey → List (PkgKey × ResolvedPackage) → String → String →
    Option DependencySpec → Except PyErr (List (PkgKey × ResolvedPackage))
  | 0, _, _, _, _, _ => .error .fuel
  | fuel + 1, visiting, resolved, pkg_kind, pkg_slug, constraint =>
    if (resolved.lookup (pkg_kind, pkg_slug)).isSome then .ok resolved
    else if visiting.contains (pkg_kind, pkg_slug) then
      .error (.dependency (circularMsg pkg_kind pkg_slug))
    else
      filterCandidates constraint (indexGet env (pkg_kind, pkg_slug)) >>=
        fun pkg_candidates =>
      checkParsable pkg_candidates >>= fun _ =>
      match sortCandidates pkg_candidates with
      | [] => .error (.dependency (noSatMsg pkg_kind pkg_slug constraint))
      | best :: _ =>
        ((env.deps pkg_kind best.2.1).foldlM
          (fun acc ds =>
            resolvePkg env fuel ((pkg_kind, pkg_slug) :: visiting) acc
              ds.1 ds.2.slug (some ds.2))
          resolved) >>= fun resolvedAfter =>
        .ok (resolvedAfter ++ [((pkg_kind, pkg_slug),
          { kind := pkg_kind, slug := pkg_slug, version := best.1,
            path := best.2.1, source := best.2.2 })])

/-- Output dict of resolve from resolver.py. -/
structure ResolveResult where
  slug : String
  kind : String
  version : String
  path : String
  source : String
  dependencies : List ResolvedPackage
deriving DecidableEq, Repr

/-- The output dict construction of resolve step 5: the root's fields plus
the dependencies list. -/
def mkResolveResult (root_pkg : ResolvedPackage)
    (deps : List ResolvedPackage) : ResolveResult :=
  { slug := root_pkg.slug, kind := root_pkg.kind,
    version := root_pkg.version, path := root_pkg.path,
    source := root_pkg.source, dependencies := deps }

/-- Step 2 of resolve: determine the kind, probing skill before role when it
is omitted. -/
def resolveKind (env : ResolverEnv) (slug : String) :
    Option String → Except PyErr String
  | some k => .ok k
  | none =>
    if (env.index.lookup ("skill", slug)).isSome then .ok "skill"
    else if (env.index.lookup ("role", slug)).isSome then .ok "role"
    else .error (.dependency (slug ++ " is not installed as a skill or role."))

/-- Step 3 of resolve: the root package must have candidates, and when a root
version is requested it must be among them. -/
def checkRoot (kind slug : String) (candidates : List IndexEntry3) :
    Option String → Except PyErr Unit
  | none =>
    if candidates.isEmpty then
      .error (.dependency (kind ++ " " ++ slug ++ " is not installed."))
    else .ok ()
  | some v =>
    if candidates.isEmpty then
      .error (.dependency (kind ++ " " ++ slug ++ " is not installed."))
    else if candidates.any (fun c => c.1 == v) then .ok ()
    else .error (.dependency (kind ++ " " ++ slug ++ " v" ++ v
      ++ " is not installed."))

/-- Fuel that resolve gives the depth-first walk: one more than the number of
index keys, enough because the visiting path only ever holds distinct index
keys. -/
def resolveFuel (env : ResolverEnv) : Nat :=
  env.index.length + 1

/-- resolve from resolver.py, after the index has been built (steps 2-5). -/
def resolveWithIndex (env : ResolverEnv) (slug : String)
    (kindOpt : Option String) (versionOpt : Option String) :
    Except PyErr ResolveResult :=
  resolveKind env slug kindOpt >>= fun kind =>
  checkRoot kind slug (indexGet env (kind, slug)) versionOpt >>= fun _ =>
  resolvePkg env (resolveFuel env) [] [] kind slug
    (versionOpt.map (fun v => DependencySpec.mk slug .eq (some v)))
    >>= fun resolved =>
  match resolved.lookup (kind, slug) with
  | none => .error .keyError
  | some root_pkg =>
    .ok (mkResolveResult root_pkg
      ((resolved.eraseP (fun p => p.1 == (kind, slug))).map Prod.snd))

/-! ## Installed-package index (_build_index in resolver.py) -/

/-- The index type built by _build_index. -/
abbrev Index := List (PkgKey × List IndexEntry3)

/-- One scope root's directory listing: for each of skills/ and roles/,
none when the subdirectory is missing, else the directory entries as
(name, is_dir) in iteration order. -/
structure ScopeFS where
  skills : Option (List (String × Bool))
  roles : Option (List (String × Bool))

/-- Versions already indexed for a key. -/
def indexVersions (idx : Index) (key : PkgKey) : List String :=
  (indexFind idx key).map Prod.fst

/-- Append an entry to the list stored at an existing key. -/
def indexAppend (idx : Index) (key : PkgKey) (e : IndexEntry3) : Index :=
  idx.map (fun p => if p.1 == key then (p.1, p.2 ++ [e]) else p)

/-- Body of the entry loop of _build_index: skip non-directories and
unparsable names, create the key's slot on first sight, and append unless the
version is already indexed for the key. -/
def addDirEntry (kind scope root sub : String) (idx : Index)
    (entry : String × Bool) : Index :=
  if !entry.2 then idx
  else
    match parse_dir_name entry.1 with
    | none => idx
    | some (pkg_slug, pkg_version) =>
      let key : PkgKey := (kind, pkg_slug)
      let idx1 := if (idx.lookup key).isSome then idx else idx ++ [(key, [])]
      if (indexVersions idx1 key).contains pkg_version then idx1
      else indexAppend idx1 key
        (pkg_version, root ++ "/" ++ sub ++ "/" ++ entry.1, scope)

/-- Scan one kind subdirectory of one scope. -/
def scanKind (kind scope root sub : String)
    (entries : Option (List (String × Bool))) (idx : Index) : Index :=
  match entries with
  | none => idx
  | some es => es.foldl (addDirEntry kind scope root sub) idx

/-- _build_index from resolver.py: local scope before global, skills before
roles within each scope. -/
def build_index (local_root global_root : String) (lfs gfs : ScopeFS) : Index :=
  let i1 := scanKind "skill" "local" local_root "skills" lfs.skills []
  let i2 := scanKind "role" "local" local_root "roles" lfs.roles i1
  let i3 := scanKind "skill" "global" global_root "skills" gfs.skills i2
  scanKind "role" "global" global_root "roles" gfs.roles i3

/-- resolve from resolver.py including step 1: build the index from the two
scope roots, then resolve over it. -/
def resolve (local_root global_root : String) (lfs gfs : ScopeFS)
    (deps : String → String → List (String × DependencySpec)) (slug : String)
    (kindOpt : Option String) (versionOpt : Option String) :
    Except PyErr ResolveResult :=
  resolveWithIndex ⟨build_index local_root global_root lfs gfs, deps⟩
    slug kindOpt versionOpt

/-! ## Specification-side and analysis definitions for the resolver claims -/

/-- Keys of a resolved map, in insertion order. -/
def resolvedKeys (r : List (PkgKey × ResolvedPackage)) : List PkgKey :=
  r.map Prod.fst

/-- The (kind, slug) keys a package of the given kind at the given path
declares as dependencies. -/
def childKeys (env : ResolverEnv) (kind path : String) : List PkgKey :=
  (env.deps kind path).map (fun ds => (ds.1, ds.2.slug))

/-- Reachability through the dependency edges of a resolved map: an edge
leads from a resolved node to each key its chosen path declares. -/
inductive ReachIn (env : ResolverEnv) (m : List (PkgKey × ResolvedPackage)) :
    PkgKey → PkgKey → Prop where
  | refl (k : PkgKey) : ReachIn env m k k
  | step {k1 k2 k3 : PkgKey} (rp : ResolvedPackage) :
      ReachIn env m k1 k2 → (k2, rp) ∈ m →
      k3 ∈ childKeys env k2.1 rp.path → ReachIn env m k1 k3

/-- How one resolver call may grow the resolved map: existing entries
survive, new entries carry keys away from the visiting path and from the
previous map and record their own kind and slug, and key uniqueness is
preserved. -/
def RunGrowth (visiting : List PkgKey)
    (resolved out : List (PkgKey × ResolvedPackage)) : Prop :=
  (∀ p ∈ resolved, p ∈ out) ∧
  (∀ p ∈ out, p ∈ resolved ∨
    (p.1 ∉ visiting ∧ p.1 ∉ resolvedKeys resolved ∧
      p.2.kind = p.1.1 ∧ p.2.slug = p.1.2)) ∧
  ((resolvedKeys resolved).Nodup → (resolvedKeys out).Nodup)

/-- An optional constraint accepts a version: vacuous for no constraint,
satisfies_version returning ok true otherwise. -/
def SatOk (c : Option DependencySpec) (v : String) : Prop :=
  match c with
  | none => True
  | some sp => satisfies_version v sp = .ok true

/-- Version string a is at least version string b under compare_versions. -/
def VersionGeStr (a b : String) : Prop :=
  ∃ pa pb, parse_version a = .ok pa ∧ parse_version b = .ok pb ∧
    0 ≤ compare_versions pa pb

/-- Lexicographic order on parsed versions. -/
def pvLe (a b : ParsedVersion) : Prop :=
  a.major < b.major ∨ (a.major = b.major ∧
    (a.minor < b.minor ∨ (a.minor = b.minor ∧ a.patch ≤ b.patch)))

/-- The resolved map a resolve output describes: the root plus each
dependency entry, keyed by (kind, slug). -/
def outMap (res : ResolveResult) : List (PkgKey × ResolvedPackage) :=
  ((res.kind, res.slug),
    ⟨res.kind, res.slug, res.version, res.path, res.source⟩)
    :: res.dependencies.map (fun r => ((r.kind, r.slug), r))

/-- The (kind, slug) keys of a resolve output's dependencies list. -/
def depKeys (res : ResolveResult) : List PkgKey :=
  res.dependencies.map (fun r => (r.kind, r.slug))

/-- The versions a directory listing contributes for a key during a scan of
the given kind: is_dir entries whose parsed name has the key's slug. -/
def dirVersions (entries : Option (List (String × Bool))) (kind : String)
    (key : PkgKey) : List String :=
  match entries with
  | none => []
  | some es =>
    (es.filter (fun e => e.2)).filterMap (fun e =>
      match parse_dir_name e.1 with
      | some (slug, v) => if key = (kind, slug) then some v else none
      | none => none)

/-- All versions a scope's listing contributes for a key. -/
def scopeVersions (fs : ScopeFS) (key : PkgKey) : List String :=
  dirVersions fs.skills "skill" key ++ dirVersions fs.roles "role" key

/-! ## Specification-side definitions for the version claims -/

/-- A nonempty run of Unicode decimal digits (the characters \d matches). -/
def DigitRun (l : List Char) : Prop :=
  l ≠ [] ∧ ∀ ch ∈ l, isPyDigit ch = true

/-- The exact shape the specification ascribes to parse_version inputs:
three dot-separated runs of digits and nothing else. -/
def VersionShape (s : String) : Prop :=
  ∃ a b c : List Char, DigitRun a ∧ DigitRun b ∧ DigitRun c ∧
    s.toList = a ++ '.' :: b ++ '.' :: c

/-- The shape parse_version actually accepts: the three digit runs,
optionally followed by one trailing newline (Python dollar semantics). -/
def VersionShapeNL (s : String) : Prop :=
  ∃ a b c : List Char, DigitRun a ∧ DigitRun b ∧ DigitRun c ∧
    (s.toList = a ++ '.' :: b ++ '.' :: c ∨
      s.toList = a ++ '.' :: b ++ '.' :: c ++ ['\n'])

/-! ## Concrete instances used by counterexamples and witnesses -/

/-- A lockfile holding a dangling dependent key: "ghost" appears in a
dependents list but not in packages. -/
def lfDangling : Lockfile :=
  { direct_installs := [],
    packages := [("role:a:1.0.0", ⟨"role", "a", "1.0.0", ["ghost"]⟩)] }

/-- An orphan chain: a has no dependents, b is depended on only by a, c only
by b; nothing is a direct install. -/
def lfChain : Lockfile :=
  { direct_installs := [],
    packages :=
      [("role:a:1.0.0", ⟨"role", "a", "1.0.0", []⟩),
       ("role:b:1.0.0", ⟨"role", "b", "1.0.0", ["role:a:1.0.0"]⟩),
       ("skill:c:1.0.0", ⟨"skill", "c", "1.0.0", ["role:b:1.0.0"]⟩)] }

/-- A slug installed both as a skill and as a role. -/
def envBoth : ResolverEnv :=
  { index := [(("skill", "x"), [("1.0.0", "ps", "local")]),
              (("role", "x"), [("1.0.0", "pr", "local")])],
    deps := fun _ _ => [] }

/-- The diamond configuration: d has no dependencies, b and c depend on d,
role a depends on b and c. -/
def envDiamond : ResolverEnv :=
  { index := [(("skill", "d"), [("1.0.0", "pd", "local")]),
              (("skill", "b"), [("1.0.0", "pb", "local")]),
              (("skill", "c"), [("1.0.0", "pc", "local")]),
              (("role", "a"), [("1.0.0", "pa", "local")])],
    deps := fun kind path =>
      if kind == "role" && path == "pa" then
        [("skill", ⟨"b", .latest, none⟩), ("skill", ⟨"c", .latest, none⟩)]
      else if kind == "skill" && path == "pb" then
        [("skill", ⟨"d", .latest, none⟩)]
      else if kind == "skill" && path == "pc" then
        [("skill", ⟨"d", .latest, none⟩)]
      else [] }

/-- git-workflow installed at 1.0.0, 1.4.0 and 2.0.0, with a role
implementer depending on git-workflow^1.0.0. -/
def envCaret : ResolverEnv :=
  { index := [(("skill", "git-workflow"),
                [("1.0.0", "p1", "local"), ("1.4.0", "p2", "local"),
                 ("2.0.0", "p3", "local")]),
              (("role", "implementer"), [("1.0.0", "pi", "local")])],
    deps := fun kind path =>
      if kind == "role" && path == "pi" then
        [("skill", ⟨"git-workflow", .caret, some "1.0.0"⟩)]
      else [] }

/-- Dependency tables for a mutual pair of skills: the skill at path pa
declares slug b, the skill at path pb declares slug a. -/
def mutualDeps (a b pa pb : String) : String → String →
    List (String × DependencySpec) :=
  fun kind path =>
    if kind == "skill" && path == pa then [("skill", ⟨b, .latest, none⟩)]
    else if kind == "skill" && path == pb then [("skill", ⟨a, .latest, none⟩)]
    else []

/-- Environment with two installed skills that declare each other as their
only dependency. -/
def mutualEnv (a b va vb pa pb : String) : ResolverEnv :=
  { index := [(("skill", a), [(va, pa, "local")]),
              (("skill", b), [(vb, pb, "local")])],
    deps := mutualDeps a b pa pb }

/-- Local scope holding skill gw at 1.0.0 only; global scope holding gw at
1.0.0 and 2.0.0. -/
def lfsCross : ScopeFS := { skills := some [("gw-1.0.0", true)], roles := none }

/-- Global-side listing for the cross-scope instances. -/
def gfsCross : ScopeFS :=
  { skills := some [("gw-1.0.0", true), ("gw-2.0.0", true)], roles := none }

/-- Global-side listing where the highest version equals the local one. -/
def gfsSame : ScopeFS := { skills := some [("gw-1.0.0", true)], roles := none }

/-- Empty dependency tables: no package declares any dependency. -/
def noDeps : String → String → List (String × DependencySpec) := fun _ _ => []

/-- The output of resolving role a over the diamond configuration. -/
def diamondRes : ResolveResult :=
  { slug := "a", kind := "role", version := "1.0.0", path := "pa",
    source := "local",
    dependencies :=
      [{ kind := "skill", slug := "d", version := "1.0.0", path := "pd",
         source := "local" },
       { kind := "skill", slug := "b", version := "1.0.0", path := "pb",
         source := "local" },
       { kind := "skill", slug := "c", version := "1.0.0", path := "pc",
         source := "local" }] }

/-! ## Helper lemmas on association lists -/

theorem lookup_mem {α β : Type} [BEq α] [LawfulBEq α] {l : List (α × β)}
    {k : α} {v : β} (h : l.lookup k = some v) : (k, v) ∈ l := by
  induction l with
  | nil => simp [List.lookup] at h
  | cons p rest ih =>
    obtain ⟨a, b⟩ := p
    rw [List.lookup_cons] at h
    cases hb : (k == a) with
    | true =>
      rw [hb] at h
      simp only [Option.some.injEq] at h
      subst h
      exact (eq_of_beq hb) ▸ List.mem_cons_self _ _
    | false =>
      rw [hb] at h
      exact List.mem_cons_of_mem _ (ih h)

theorem lookup_isSome_of_mem_keys {α β : Type} [BEq α] [LawfulBEq α]
    {l : List (α × β)} {k : α} (h : k ∈ l.map Prod.fst) :
    (l.lookup k).isSome = true := by
  induction l with
  | nil => simp at h
  | cons p rest ih =>
    obtain ⟨a, b⟩ := p
    rw [List.lookup_cons]
    by_cases heq : k = a
    · simp [heq]
    · have hb : (k == a) = false := by simp [heq]
      rw [hb]
      have h1 : k ∈ rest.map Prod.fst := by
        rcases List.mem_map.mp h with ⟨q, hq, hfst⟩
        rcases List.mem_cons.mp hq with h2 | h2
        · exact absurd (by rw [← hfst, h2]) heq
        · exact List.mem_map.mpr ⟨q, h2, hfst⟩
      exact ih h1

theorem mem_keys_of_lookup_isSome {α β : Type} [BEq α] [LawfulBEq α]
    {l : List (α × β)} {k : α} (h : (l.lookup k).isSome = true) :
    k ∈ l.map Prod.fst := by
  rcases Option.isSome_iff_exists.mp h with ⟨v, hv⟩
  exact List.mem_map.mpr ⟨(k, v), lookup_mem hv, rfl⟩

theorem lookup_append_of_none {α β : Type} [BEq α] [LawfulBEq α] {l1 l2 : List (α × β)}
    {k : α} (h : l1.lookup k = none) :
    (l1 ++ l2).lookup k = l2.lookup k := by
  induction l1 with
  | nil => rfl
  | cons p rest ih =>
    obtain ⟨a, b⟩ := p
    rw [List.lookup_cons] at h
    rw [List.cons_append, List.lookup_cons]
    by_cases heq : k = a
    · rw [beq_iff_eq.mpr heq] at h; simp at h
    · have hb : (k == a) = false := by simp [heq]
      rw [hb] at h ⊢
      exact ih h

/-! ## C5: Lockfile.load on missing and malformed files -/

/-- C5: Lockfile.load returns an empty lockfile (no direct installs, no
packages) when the file is missing, and this is not an error; when the file
exists but json.loads cannot parse its content, load propagates the
json.JSONDecodeError (a ValueError) — it does not silently recover, but it
also does not raise the LockfileError the specification names, since nothing
in the code ever raises LockfileError. -/
theorem lockfile_load_missing_and_malformed :
    Lockfile.load none = .ok ⟨[], []⟩ ∧
    ∀ msg : String,
      Lockfile.load (some (.error msg)) = .error (.jsonDecodeError msg) :=
  ⟨rfl, fun _ => rfl⟩

/-! ## C8: collect_orphans does not mutate the lockfile -/

/-- C8: the collect_orphans method leaves the lockfile state exactly as it
was: the sweep works on a copy of packages, so after the call the packages
map (with every dependents list) and the directInstalls list are unchanged. -/
theorem collect_orphans_does_not_mutate :
    ∀ lf : Lockfile,
      (lf.collect_orphans_method).2.packages = lf.packages ∧
      (lf.collect_orphans_method).2.direct_installs = lf.direct_installs ∧
      (lf.collect_orphans_method).2 = lf :=
  fun _ => ⟨rfl, rfl, rfl⟩

/-! ## C10: the kind probe of resolve checks skill first -/

/-- C10: with kind omitted, resolve probes the skill kind first: if the slug
is indexed as a skill (in particular when it is installed as both kinds) the
call behaves exactly like an explicit kind="skill" call, with no ambiguity
error; the role kind is used when only a role is indexed; the
not-installed-as-a-skill-or-role DependencyError arises exactly when the slug
is indexed as neither kind. -/
theorem resolve_kind_probe_skill_first :
    ∀ (env : ResolverEnv) (slug : String) (versionOpt : Option String),
      ((env.index.lookup ("skill", slug)).isSome = true →
        resolveWithIndex env slug none versionOpt
          = resolveWithIndex env slug (some "skill") versionOpt) ∧
      ((env.index.lookup ("skill", slug)).isSome = false →
        (env.index.lookup ("role", slug)).isSome = true →
        resolveWithIndex env slug none versionOpt
          = resolveWithIndex env slug (some "role") versionOpt) ∧
      ((env.index.lookup ("skill", slug)).isSome = false →
        (env.index.lookup ("role", slug)).isSome = false →
        resolveWithIndex env slug none versionOpt
          = .error (.dependency (slug ++ " is not installed as a skill or role."))) := by
  intro env slug versionOpt
  refine ⟨?_, ?_, ?_⟩
  · intro h
    have hk : resolveKind env slug none = .ok "skill" := by
      simp [resolveKind, h]
    have hk2 : resolveKind env slug (some "skill") = .ok "skill" := rfl
    simp [resolveWithIndex, hk, hk2]
  · intro h1 h2
    have hk : resolveKind env slug none = .ok "role" := by
      simp [resolveKind, h1, h2]
    have hk2 : resolveKind env slug (some "role") = .ok "role" := rfl
    simp [resolveWithIndex, hk, hk2]
  · intro h1 h2
    have hk : resolveKind env slug none
        = .error (.dependency (slug ++ " is not installed as a skill or role.")) := by
      simp [resolveKind, h1, h2]
    simp only [resolveWithIndex, hk]
    rfl

/-- Witness for C10 at a slug installed as both a skill and a role: the
probe silently resolves it as a skill. -/
theorem resolve_kind_probe_skill_first_witness :
    resolveWithIndex envBoth "x" none none
      = resolveWithIndex envBoth "x" (some "skill") none :=
  (resolve_kind_probe_skill_first envBoth "x" none).1 (by rfl)

/-! ## C6: is_orphan versus the restricted-dependents invariant -/

/-- C6 counterexample: with a dangling dependent key the restriction of the
dependents set to present keys is empty and the key is not a direct install,
yet is_orphan answers false, because the code tests the raw dependents list
for emptiness without restricting it to present keys. -/
theorem is_orphan_dangling_counterexample :
    "role:a:1.0.0" ∈ packageKeys lfDangling.packages ∧
    spec_is_orphan lfDangling "role:a:1.0.0" = true ∧
    lfDangling.is_orphan "role:a:1.0.0" = false := by
  refine ⟨?_, rfl, rfl⟩
  simp [lfDangling, packageKeys]

/-- C6 amended: on every lockfile state satisfying the specification's own
no-dangling-dependents invariant, is_orphan agrees with the restricted
invariant: for every key present in packages, is_orphan is true iff the
dependents set restricted to present keys is empty and the key is not a
direct install. -/
theorem is_orphan_iff_of_no_dangling :
    ∀ lf : Lockfile, NoDanglingDependents lf →
      ∀ key ∈ packageKeys lf.packages,
        (lf.is_orphan key = true ↔ spec_is_orphan lf key = true) := by
  intro lf hnd key hmem
  have hs := lookup_isSome_of_mem_keys hmem
  rcases Option.isSome_iff_exists.mp hs with ⟨pkg, hpkg⟩
  have hin : (key, pkg) ∈ lf.packages := lookup_mem hpkg
  have hfilter : pkg.dependents.filter
      (fun d => (packageKeys lf.packages).contains d) = pkg.dependents := by
    apply List.filter_eq_self.mpr
    intro d hd
    have := hnd (key, pkg) hin d hd
    simpa [List.contains, List.elem_iff] using this
  rw [Lockfile.is_orphan, spec_is_orphan, hpkg]
  simp only [hfilter]

/-- Witness for the amended C6 on the chain lockfile, at a key with a
nonempty dependents list whose members are all present. -/
theorem is_orphan_iff_of_no_dangling_witness :
    NoDanglingDependents lfChain ∧
    ("role:b:1.0.0" ∈ packageKeys lfChain.packages) ∧
    (lfChain.is_orphan "role:b:1.0.0" = true ↔
      spec_is_orphan lfChain "role:b:1.0.0" = true) :=
  ⟨by unfold NoDanglingDependents; decide, by decide,
    is_orphan_iff_of_no_dangling lfChain (by unfold NoDanglingDependents; decide)
      "role:b:1.0.0" (by decide)⟩

/-! ## C9: the language accepted by parse_version -/

theorem takeWhile_digit_append (a : List Char) (x : Char) (r : List Char)
    (ha : ∀ c ∈ a, isPyDigit c = true) (hx : isPyDigit x = false) :
    List.takeWhile isPyDigit (a ++ x :: r) = a := by
  induction a with
  | nil => simp [List.takeWhile_cons, hx]
  | cons c cs ih =>
    have hc : isPyDigit c = true := ha c (List.mem_cons_self _ _)
    simp only [List.cons_append, List.takeWhile_cons, hc, if_true]
    rw [ih (fun d hd => ha d (List.mem_cons_of_mem _ hd))]

theorem dropWhile_digit_append (a : List Char) (x : Char) (r : List Char)
    (ha : ∀ c ∈ a, isPyDigit c = true) (hx : isPyDigit x = false) :
    List.dropWhile isPyDigit (a ++ x :: r) = x :: r := by
  induction a with
  | nil => simp [List.dropWhile_cons, hx]
  | cons c cs ih =>
    have hc : isPyDigit c = true := ha c (List.mem_cons_self _ _)
    simp only [List.cons_append, List.dropWhile_cons, hc, if_true]
    exact ih (fun d hd => ha d (List.mem_cons_of_mem _ hd))

theorem takeWhile_digit_all (a : List Char) (ha : ∀ c ∈ a, isPyDigit c = true) :
    List.takeWhile isPyDigit a = a := by
  induction a with
  | nil => rfl
  | cons c cs ih =>
    have hc : isPyDigit c = true := ha c (List.mem_cons_self _ _)
    simp only [List.takeWhile_cons, hc, if_true]
    rw [ih (fun d hd => ha d (List.mem_cons_of_mem _ hd))]

theorem dropWhile_digit_all (a : List Char) (ha : ∀ c ∈ a, isPyDigit c = true) :
    List.dropWhile isPyDigit a = [] := by
  induction a with
  | nil => rfl
  | cons c cs ih =>
    have hc : isPyDigit c = true := ha c (List.mem_cons_self _ _)
    simp only [List.dropWhile_cons, hc, if_true]
    exact ih (fun d hd => ha d (List.mem_cons_of_mem _ hd))

theorem dollarTail_cases {r : List Char} (h : dollarTail r = true) :
    r = [] ∨ r = ['\n'] := by
  match r with
  | [] => exact Or.inl rfl
  | [c] =>
    refine Or.inr ?_
    have : c = '\n' := by simpa [dollarTail] using h
    rw [this]
  | _ :: _ :: _ => simp [dollarTail] at h

/-- Characterization of the versionGroups matcher: it succeeds exactly on
three nonempty digit runs joined by dots, followed by nothing or one
newline, and returns those runs. -/
theorem versionGroups_eq_some_iff (cs : List Char)
    (a b c : List Char) :
    versionGroups cs = some (a, b, c) ↔
      (DigitRun a ∧ DigitRun b ∧ DigitRun c ∧
        (cs = a ++ '.' :: b ++ '.' :: c ∨
          cs = a ++ '.' :: b ++ '.' :: c ++ ['\n'])) := by
  constructor
  · intro h
    rw [versionGroups] at h
    simp only [List.span_eq_take_drop] at h
    split at h
    case _ c1 rest1 heq1 =>
      split at h
      case isTrue hc1 =>
        split at h
        case _ c2 rest2 heq2 =>
          split at h
          case isTrue hc2 =>
            split at h
            case isTrue => exact absurd h (by simp)
            case isFalse hcond =>
              simp only [Option.some.injEq, Prod.mk.injEq] at h
              obtain ⟨ha, hb, hc⟩ := h
              have h1ne : List.takeWhile isPyDigit cs ≠ [] := by
                intro he; rw [he] at hcond; simp at hcond
              have h2ne : List.takeWhile isPyDigit rest1 ≠ [] := by
                intro he; rw [he] at hcond; simp at hcond
              have h3ne : List.takeWhile isPyDigit rest2 ≠ [] := by
                intro he; rw [he] at hcond; simp at hcond
              have htail : dollarTail (List.dropWhile isPyDigit rest2) = true := by
                cases hdt : dollarTail (List.dropWhile isPyDigit rest2) with
                | true => rfl
                | false => rw [hdt] at hcond; simp at hcond
              have hcs : cs = List.takeWhile isPyDigit cs ++ c1 :: rest1 := by
                conv_lhs => rw [← List.takeWhile_append_dropWhile
                  isPyDigit cs]
                rw [heq1]
              have hrest1 : rest1
                  = List.takeWhile isPyDigit rest1 ++ c2 :: rest2 := by
                conv_lhs => rw [← List.takeWhile_append_dropWhile
                  isPyDigit rest1]
                rw [heq2]
              have hrest2 : rest2 = List.takeWhile isPyDigit rest2
                  ++ List.dropWhile isPyDigit rest2 :=
                (List.takeWhile_append_dropWhile _ _).symm
              refine ⟨⟨?_, ?_⟩, ⟨?_, ?_⟩, ⟨?_, ?_⟩, ?_⟩
              · rw [← ha]; exact h1ne
              · intro ch hch; rw [← ha] at hch; exact List.mem_takeWhile_imp hch
              · rw [← hb]; exact h2ne
              · intro ch hch; rw [← hb] at hch; exact List.mem_takeWhile_imp hch
              · rw [← hc]; exact h3ne
              · intro ch hch; rw [← hc] at hch; exact List.mem_takeWhile_imp hch
              · rcases dollarTail_cases htail with ht | ht
                · left
                  rw [hcs, hrest1, hrest2, ht, ha, hb, hc, hc1, hc2]
                  simp
                · right
                  rw [hcs, hrest1, hrest2, ht, ha, hb, hc, hc1, hc2]
                  simp
          case isFalse hc2 => simp at h
        case _ => simp at h
      case isFalse hc1 => simp at h
    case _ => simp at h
  · rintro ⟨⟨hane, hadig⟩, ⟨hbne, hbdig⟩, ⟨hcne, hcdig⟩, hshape⟩
    have hdot : isPyDigit '.' = false := by decide
    have hnl : isPyDigit '\n' = false := by decide
    have key : ∀ tail : List Char, dollarTail tail = true →
        List.takeWhile isPyDigit (c ++ tail) = c ∧
        List.dropWhile isPyDigit (c ++ tail) = tail ∧
        cs = a ++ '.' :: b ++ '.' :: c ++ tail →
        versionGroups cs = some (a, b, c) := by
      intro tail htail ⟨htw, hdw, hcs⟩
      rw [versionGroups]
      simp only [List.span_eq_take_drop]
      rw [hcs]
      rw [show a ++ '.' :: b ++ '.' :: c ++ tail
          = a ++ '.' :: (b ++ '.' :: (c ++ tail)) by simp]
      rw [takeWhile_digit_append a '.' _ hadig hdot,
        dropWhile_digit_append a '.' _ hadig hdot]
      simp only [if_pos rfl]
      rw [takeWhile_digit_append b '.' _ hbdig hdot,
        dropWhile_digit_append b '.' _ hbdig hdot]
      simp only [if_pos rfl]
      rw [htw, hdw]
      simp [List.isEmpty_eq_false, hane, hbne, hcne, htail]
    rcases hshape with hcs | hcs
    · refine key [] rfl ⟨?_, ?_, by simpa using hcs⟩
      · simpa using takeWhile_digit_all c hcdig
      · simpa using dropWhile_digit_all c hcdig
    · refine key ['\n'] rfl ⟨?_, ?_, by simpa using hcs⟩
      · exact takeWhile_digit_append c '\n' [] hcdig hnl
      · exact dropWhile_digit_append c '\n' [] hcdig hnl

/-- C9 counterexample: the string "1.2.3" followed by a newline is not of the
claimed shape (it has an extra trailing character), yet parse_version accepts
it, because Python's dollar anchor also matches just before a final newline. -/
theorem parse_version_trailing_newline_counterexample :
    parse_version "1.2.3\n" = .ok ⟨1, 2, 3⟩ ∧ ¬ VersionShape "1.2.3\n" := by
  constructor
  · rfl
  · rintro ⟨a, b, c, ⟨-, hadig⟩, ⟨-, hbdig⟩, ⟨-, hcdig⟩, hshape⟩
    have hmem : '\n' ∈ ("1.2.3\n" : String).toList := by decide
    rw [hshape] at hmem
    simp only [List.append_assoc, List.cons_append] at hmem
    have hnl : isPyDigit '\n' = false := by decide
    rcases List.mem_append.mp hmem with hm | hm
    · rw [hadig _ hm] at hnl; exact Bool.true_eq_false.mp hnl
    rcases List.mem_cons.mp hm with hm | hm
    · exact absurd hm (by decide)
    rcases List.mem_append.mp hm with hm | hm
    · rw [hbdig _ hm] at hnl; exact Bool.true_eq_false.mp hnl
    rcases List.mem_cons.mp hm with hm | hm
    · exact absurd hm (by decide)
    · rw [hcdig _ hm] at hnl; exact Bool.true_eq_false.mp hnl

/-- C9 amended: parse_version accepts exactly the strings of shape
digits.digits.digits optionally followed by one trailing newline, where a
digit is any Unicode decimal digit (a str-pattern \d matches all of
category Nd, and int() converts such digits by their decimal value) and the
trailing newline comes from the Python dollar-anchor semantics of
VERSION_REGEX; on success it returns the integer values of the three digit
runs, and every other string fails with the ValueError the code raises (the
specification's ValidationError). -/
theorem parse_version_accepts_iff_shape :
    ∀ s : String,
      ((parse_version s).isOk = true ↔ VersionShapeNL s) ∧
      (∀ a b c : List Char, DigitRun a → DigitRun b → DigitRun c →
        (s.toList = a ++ '.' :: b ++ '.' :: c ∨
          s.toList = a ++ '.' :: b ++ '.' :: c ++ ['\n']) →
        parse_version s = .ok ⟨digitsVal a, digitsVal b, digitsVal c⟩) := by
  intro s
  constructor
  · constructor
    · intro h
      rw [parse_version] at h
      rcases hg : versionGroups s.toList with - | ⟨a, b, c⟩
      · rw [hg] at h; simp [Except.isOk, Except.toBool] at h
      · rcases (versionGroups_eq_some_iff s.toList a b c).mp hg
          with ⟨ha, hb, hc, hshape⟩
        exact ⟨a, b, c, ha, hb, hc, hshape⟩
    · rintro ⟨a, b, c, ha, hb, hc, hshape⟩
      have hg := (versionGroups_eq_some_iff s.toList a b c).mpr
        ⟨ha, hb, hc, hshape⟩
      rw [parse_version, hg]
      rfl
  · intro a b c ha hb hc hshape
    have hg := (versionGroups_eq_some_iff s.toList a b c).mpr
      ⟨ha, hb, hc, hshape⟩
    rw [parse_version, hg]

/-- Witness for the amended C9 at the ASCII string "1.2.3" and at the
Arabic-Indic digit string U+0661.U+0662.U+0663, which the program also
accepts, returning (1, 2, 3). -/
theorem parse_version_accepts_iff_shape_witness :
    parse_version "1.2.3" = .ok ⟨digitsVal ['1'], digitsVal ['2'], digitsVal ['3']⟩ ∧
    parse_version "\u0661.\u0662.\u0663" = .ok ⟨1, 2, 3⟩ :=
  ⟨(parse_version_accepts_iff_shape "1.2.3").2 ['1'] ['2'] ['3']
    ⟨by decide, by decide⟩ ⟨by decide, by decide⟩ ⟨by decide, by decide⟩
    (Or.inl (by decide)),
   (parse_version_accepts_iff_shape "\u0661.\u0662.\u0663").2
    ['\u0661'] ['\u0662'] ['\u0663']
    ⟨by decide, by decide⟩ ⟨by decide, by decide⟩ ⟨by decide, by decide⟩
    (Or.inl (by decide))⟩

/-! ## C1: collect_orphans computes exactly the cascading-sweep orphans -/

theorem contains_iff_mem (l : List String) (k : String) :
    l.contains k = true ↔ k ∈ l := by
  simp [List.contains, List.elem_iff]

theorem mem_packageKeys {l : List (String × LockEntry)} {k : String} :
    k ∈ packageKeys l ↔ ∃ p ∈ l, p.1 = k := by
  simp [packageKeys, List.mem_map]

theorem packageKeys_append (l1 l2 : List (String × LockEntry)) :
    packageKeys (l1 ++ l2) = packageKeys l1 ++ packageKeys l2 := by
  simp [packageKeys]

theorem sweepPass_subset (direct : List PackageRef) :
    ∀ (cur kept : List (String × LockEntry)),
      ∀ p ∈ (sweepPass direct kept cur).2, p ∈ kept ++ cur := by
  intro cur
  induction cur with
  | nil =>
    intro kept p hp
    rw [sweepPass] at hp
    simpa using hp
  | cons q rest ih =>
    obtain ⟨key, pkg⟩ := q
    intro kept p hp
    rw [sweepPass] at hp
    split at hp
    · have hp2 : p ∈ (sweepPass direct kept rest).2 := hp
      have := ih kept p hp2
      rcases List.mem_append.mp this with h1 | h1
      · exact List.mem_append.mpr (Or.inl h1)
      · exact List.mem_append.mpr (Or.inr (List.mem_cons_of_mem _ h1))
    · have := ih (kept ++ [(key, pkg)]) p hp
      rcases List.mem_append.mp this with h1 | h1
      · rcases List.mem_append.mp h1 with h2 | h2
        · exact List.mem_append.mpr (Or.inl h2)
        · rcases List.mem_cons.mp h2 with h3 | h3
          · exact List.mem_append.mpr (Or.inr (List.mem_cons.mpr (Or.inl h3)))
          · simp at h3
      · exact List.mem_append.mpr (Or.inr (List.mem_cons_of_mem _ h1))

theorem sweepPass_length (direct : List PackageRef) :
    ∀ (cur kept : List (String × LockEntry)),
      (sweepPass direct kept cur).1.length + (sweepPass direct kept cur).2.length
        = kept.length + cur.length := by
  intro cur
  induction cur with
  | nil => intro kept; rw [sweepPass]; simp
  | cons q rest ih =>
    obtain ⟨key, pkg⟩ := q
    intro kept
    rw [sweepPass]
    split
    · have := ih kept
      simp only [List.length_cons]
      omega
    · have := ih (kept ++ [(key, pkg)])
      simp only [List.length_append, List.length_cons, List.length_nil] at this ⊢
      omega

theorem sweepPass_keys_perm (direct : List PackageRef) :
    ∀ (cur kept : List (String × LockEntry)),
      (packageKeys kept ++ packageKeys cur).Perm
        ((sweepPass direct kept cur).1
          ++ packageKeys (sweepPass direct kept cur).2) := by
  intro cur
  induction cur with
  | nil =>
    intro kept
    rw [sweepPass]
    simp [packageKeys]
  | cons q rest ih =>
    obtain ⟨key, pkg⟩ := q
    intro kept
    rw [sweepPass]
    split
    · have hmid : (packageKeys kept ++ packageKeys ((key, pkg) :: rest)).Perm
          (key :: (packageKeys kept ++ packageKeys rest)) := by
        simp only [packageKeys, List.map_cons]
        exact List.perm_middle
      refine hmid.trans ?_
      have := (ih kept).cons key
      simpa using this
    · have := ih (kept ++ [(key, pkg)])
      have hkeys : packageKeys (kept ++ [(key, pkg)]) ++ packageKeys rest
          = packageKeys kept ++ packageKeys ((key, pkg) :: rest) := by
        simp [packageKeys]
      rw [hkeys] at this
      exact this

theorem sweepPass_orphans_not_direct (direct : List PackageRef) :
    ∀ (cur kept : List (String × LockEntry)),
      ∀ k ∈ (sweepPass direct kept cur).1, is_direct_key direct k = false := by
  intro cur
  induction cur with
  | nil => intro kept k hk; rw [sweepPass] at hk; simp at hk
  | cons q rest ih =>
    obtain ⟨key, pkg⟩ := q
    intro kept k hk
    rw [sweepPass] at hk
    split at hk
    case isTrue hcond =>
      simp only [Bool.and_eq_true, Bool.not_eq_true'] at hcond
      rcases List.mem_cons.mp hk with h1 | h1
      · rw [h1]
        exact hcond.2
      · exact ih kept k h1
    case isFalse => exact ih (kept ++ [(key, pkg)]) k hk

theorem sweepPass_stable_subset (direct : List PackageRef)
    (S : List (String × LockEntry)) (hS : StableSet direct S) :
    ∀ (cur kept : List (String × LockEntry)),
      (∀ p ∈ S, p ∈ kept ++ cur) →
      ∀ p ∈ S, p ∈ (sweepPass direct kept cur).2 := by
  intro cur
  induction cur with
  | nil =>
    intro kept hsub p hp
    rw [sweepPass]
    simpa using hsub p hp
  | cons q rest ih =>
    obtain ⟨key, pkg⟩ := q
    intro kept hsub p hp
    rw [sweepPass]
    split
    case isTrue hcond =>
      simp only [Bool.and_eq_true, Bool.not_eq_true'] at hcond
      have hdeps2 : pkg.dependents.any
          (fun d => (packageKeys kept ++ key :: packageKeys rest).contains d)
          = false := hcond.1
      have hdir2 : is_direct_key direct key = false := hcond.2
      have hnotmem : ((key, pkg) : String × LockEntry) ∉ S := by
        intro hmem
        rcases hS (key, pkg) hmem with hcase | ⟨dd, hdd, hddk⟩
        · rw [hdir2] at hcase; exact Bool.false_ne_true hcase
        · rcases mem_packageKeys.mp hddk with ⟨pq, hpq, hpqk⟩
          have hpq2 := hsub pq hpq
          have hddmem : dd ∈ packageKeys kept ++ key :: packageKeys rest := by
            rcases List.mem_append.mp hpq2 with h1 | h1
            · exact List.mem_append.mpr
                (Or.inl (hpqk ▸ List.mem_map.mpr ⟨pq, h1, rfl⟩))
            · rcases List.mem_cons.mp h1 with h2 | h2
              · exact List.mem_append.mpr (Or.inr (List.mem_cons.mpr
                  (Or.inl (by rw [← hpqk, h2]))))
              · exact List.mem_append.mpr (Or.inr (List.mem_cons.mpr
                  (Or.inr (hpqk ▸ List.mem_map.mpr ⟨pq, h2, rfl⟩))))
          have : pkg.dependents.any
              (fun d => (packageKeys kept ++ key :: packageKeys rest).contains d)
              = true :=
            List.any_eq_true.mpr
              ⟨dd, hdd, (contains_iff_mem _ _).mpr hddmem⟩
          rw [hdeps2] at this
          exact Bool.false_ne_true this
      refine ih kept ?_ p hp
      intro p2 hp2
      have := hsub p2 hp2
      rcases List.mem_append.mp this with h1 | h1
      · exact List.mem_append.mpr (Or.inl h1)
      · rcases List.mem_cons.mp h1 with h2 | h2
        · exact absurd (h2 ▸ hp2) hnotmem
        · exact List.mem_append.mpr (Or.inr h2)
    case isFalse =>
      refine ih (kept ++ [(key, pkg)]) ?_ p hp
      intro p2 hp2
      have := hsub p2 hp2
      rcases List.mem_append.mp this with h1 | h1
      · exact List.mem_append.mpr (Or.inl (List.mem_append.mpr (Or.inl h1)))
      · rcases List.mem_cons.mp h1 with h2 | h2
        · exact List.mem_append.mpr (Or.inl (List.mem_append.mpr
            (Or.inr (by simp [h2]))))
        · exact List.mem_append.mpr (Or.inr h2)

theorem sweepPass_empty_stable (direct : List PackageRef) :
    ∀ (cur kept : List (String × LockEntry)),
      (sweepPass direct kept cur).1 = [] →
      (sweepPass direct kept cur).2 = kept ++ cur ∧
      ∀ p ∈ cur, is_direct_key direct p.1 = true ∨
        ∃ dd ∈ p.2.dependents, dd ∈ packageKeys (kept ++ cur) := by
  intro cur
  induction cur with
  | nil =>
    intro kept _
    rw [sweepPass]
    simp
  | cons q rest ih =>
    obtain ⟨key, pkg⟩ := q
    intro kept hempty
    rw [sweepPass] at hempty ⊢
    split at hempty
    case isTrue hcond => simp at hempty
    case isFalse hcond =>
      split
      case isTrue hcond2 => exact absurd hcond2 hcond
      case isFalse =>
        obtain ⟨hrem, hprops⟩ := ih (kept ++ [(key, pkg)]) hempty
        have hassoc : kept ++ [(key, pkg)] ++ rest = kept ++ (key, pkg) :: rest := by
          simp
        constructor
        · rw [hrem, hassoc]
        · intro p hp
          rcases List.mem_cons.mp hp with h1 | h1
          · subst h1
            have hor : pkg.dependents.any
                (fun d => (packageKeys kept ++ key :: packageKeys rest).contains d)
                = true ∨ is_direct_key direct key = true := by
              cases hany : pkg.dependents.any
                  (fun d => (packageKeys kept ++ key :: packageKeys rest).contains d) with
              | true => exact Or.inl rfl
              | false =>
                cases hdirx : is_direct_key direct key with
                | true => exact Or.inr rfl
                | false => exact absurd (by rw [hany, hdirx]; rfl) hcond
            rcases hor with h2 | h2
            · rcases List.any_eq_true.mp h2 with ⟨dd, hdd, hddc⟩
              refine Or.inr ⟨dd, hdd, ?_⟩
              have := (contains_iff_mem _ _).mp hddc
              rw [packageKeys_append]
              simpa [packageKeys] using this
            · exact Or.inl h2
          · rcases hprops p h1 with h2 | ⟨dd, hdd, hddm⟩
            · exact Or.inl h2
            · refine Or.inr ⟨dd, hdd, ?_⟩
              rw [← hassoc]
              exact hddm

theorem sweepIter_subset (direct : List PackageRef) :
    ∀ (fuel : Nat) (rem : List (String × LockEntry)),
      ∀ p ∈ (sweepIter direct fuel rem).2, p ∈ rem := by
  intro fuel
  induction fuel with
  | zero => intro rem p hp; rw [sweepIter] at hp; exact hp
  | succ fuel ih =>
    intro rem p hp
    rw [sweepIter] at hp
    split at hp
    · simpa using sweepPass_subset direct rem [] p hp
    · have := ih (sweepPass direct [] rem).2 p hp
      simpa using sweepPass_subset direct rem [] p this

theorem sweepIter_keys_perm (direct : List PackageRef) :
    ∀ (fuel : Nat) (rem : List (String × LockEntry)),
      (packageKeys rem).Perm
        ((sweepIter direct fuel rem).1
          ++ packageKeys (sweepIter direct fuel rem).2) := by
  intro fuel
  induction fuel with
  | zero => intro rem; rw [sweepIter]; simp
  | succ fuel ih =>
    intro rem
    rw [sweepIter]
    have hpass := sweepPass_keys_perm direct rem []
    simp only [packageKeys, List.map_nil, List.nil_append] at hpass
    split
    case isTrue hempt =>
      rw [List.isEmpty_eq_true.mp hempt] at hpass
      simpa [packageKeys] using hpass
    case isFalse =>
      have hnext := ih (sweepPass direct [] rem).2
      refine hpass.trans ?_
      have := hnext.append_left (sweepPass direct [] rem).1
      simpa [List.append_assoc] using this

theorem sweepIter_orphans_not_direct (direct : List PackageRef) :
    ∀ (fuel : Nat) (rem : List (String × LockEntry)),
      ∀ k ∈ (sweepIter direct fuel rem).1, is_direct_key direct k = false := by
  intro fuel
  induction fuel with
  | zero => intro rem k hk; rw [sweepIter] at hk; simp at hk
  | succ fuel ih =>
    intro rem k hk
    rw [sweepIter] at hk
    split at hk
    · simp at hk
    · rcases List.mem_append.mp hk with h1 | h1
      · exact sweepPass_orphans_not_direct direct rem [] k h1
      · exact ih (sweepPass direct [] rem).2 k h1

theorem sweepIter_stable_subset (direct : List PackageRef)
    (S : List (String × LockEntry)) (hS : StableSet direct S) :
    ∀ (fuel : Nat) (rem : List (String × LockEntry)),
      (∀ p ∈ S, p ∈ rem) →
      ∀ p ∈ S, p ∈ (sweepIter direct fuel rem).2 := by
  intro fuel
  induction fuel with
  | zero => intro rem hsub p hp; rw [sweepIter]; exact hsub p hp
  | succ fuel ih =>
    intro rem hsub p hp
    rw [sweepIter]
    have hpass : ∀ p2 ∈ S, p2 ∈ (sweepPass direct [] rem).2 :=
      sweepPass_stable_subset direct S hS rem []
        (by intro p2 hp2; simpa using hsub p2 hp2)
    split
    · exact hpass p hp
    · exact ih (sweepPass direct [] rem).2 hpass p hp

theorem sweepIter_final_stable (direct : List PackageRef) :
    ∀ (fuel : Nat) (rem : List (String × LockEntry)),
      rem.length < fuel →
      StableSet direct (sweepIter direct fuel rem).2 := by
  intro fuel
  induction fuel with
  | zero => intro rem h; omega
  | succ fuel ih =>
    intro rem hlen
    rw [sweepIter]
    split
    case isTrue hempt =>
      obtain ⟨hrem, hprops⟩ :=
        sweepPass_empty_stable direct rem [] (List.isEmpty_eq_true.mp hempt)
      simp only [List.nil_append] at hrem
      intro p hp
      rw [hrem] at hp
      rcases hprops p hp with h1 | ⟨dd, hdd, hddm⟩
      · exact Or.inl h1
      · refine Or.inr ⟨dd, hdd, ?_⟩
        rw [hrem]
        simpa using hddm
    case isFalse hempt =>
      have hlenpass := sweepPass_length direct rem []
      have hpos : 0 < (sweepPass direct [] rem).1.length := by
        cases hx : (sweepPass direct [] rem).1 with
        | nil => rw [hx] at hempt; simp at hempt
        | cons a l => simp [hx]
      refine ih (sweepPass direct [] rem).2 ?_
      simp only [List.length_nil] at hlenpass
      omega

theorem spec_step_subset (direct : List PackageRef)
    (rem : List (String × LockEntry)) :
    ∀ p ∈ spec_step direct rem, p ∈ rem := by
  intro p hp
  exact (List.mem_filter.mp hp).1

theorem spec_step_stable_subset (direct : List PackageRef)
    (S : List (String × LockEntry)) (hS : StableSet direct S)
    (rem : List (String × LockEntry)) (hsub : ∀ p ∈ S, p ∈ rem) :
    ∀ p ∈ S, p ∈ spec_step direct rem := by
  intro p hp
  refine List.mem_filter.mpr ⟨hsub p hp, ?_⟩
  rcases hS p hp with h1 | ⟨dd, hdd, hddk⟩
  · simp [spec_removable, h1]
  · have hddm : dd ∈ packageKeys rem := by
      rcases mem_packageKeys.mp hddk with ⟨pq, hpq, hpqk⟩
      exact mem_packageKeys.mpr ⟨pq, hsub pq hpq, hpqk⟩
    simp only [spec_removable, Bool.not_eq_true', Bool.and_eq_false_iff]
    refine Or.inr ?_
    rw [List.all_eq_false]
    exact ⟨dd, hdd, by simpa using (contains_iff_mem _ _).mpr hddm⟩

theorem spec_sweep_subset (direct : List PackageRef) :
    ∀ (fuel : Nat) (rem : List (String × LockEntry)),
      ∀ p ∈ spec_sweep direct fuel rem, p ∈ rem := by
  intro fuel
  induction fuel with
  | zero => intro rem p hp; rw [spec_sweep] at hp; exact hp
  | succ fuel ih =>
    intro rem p hp
    rw [spec_sweep] at hp
    split at hp
    · exact hp
    · exact spec_step_subset direct rem p (ih (spec_step direct rem) p hp)

theorem spec_sweep_stable_subset (direct : List PackageRef)
    (S : List (String × LockEntry)) (hS : StableSet direct S) :
    ∀ (fuel : Nat) (rem : List (String × LockEntry)),
      (∀ p ∈ S, p ∈ rem) →
      ∀ p ∈ S, p ∈ spec_sweep direct fuel rem := by
  intro fuel
  induction fuel with
  | zero => intro rem hsub p hp; rw [spec_sweep]; exact hsub p hp
  | succ fuel ih =>
    intro rem hsub p hp
    rw [spec_sweep]
    split
    · exact hsub p hp
    · exact ih (spec_step direct rem)
        (spec_step_stable_subset direct S hS rem hsub) p hp

theorem spec_sweep_final_stable (direct : List PackageRef) :
    ∀ (fuel : Nat) (rem : List (String × LockEntry)),
      rem.length ≤ fuel →
      StableSet direct (spec_sweep direct fuel rem) := by
  intro fuel
  induction fuel with
  | zero =>
    intro rem hlen
    have : rem = [] := List.length_eq_zero.mp (Nat.le_zero.mp hlen)
    rw [spec_sweep, this]
    intro p hp
    simp at hp
  | succ fuel ih =>
    intro rem hlen
    rw [spec_sweep]
    split
    case isTrue heq =>
      have hfix : spec_step direct rem = rem :=
        (List.filter_sublist rem).eq_of_length heq
      intro p hp
      have hall : ∀ p2 ∈ rem, (fun p2 => !spec_removable direct rem p2) p2 = true :=
        List.filter_eq_self.mp hfix
      have := hall p hp
      simp only [Bool.not_eq_true', spec_removable, Bool.and_eq_false_iff] at this
      rcases this with h1 | h1
      · exact Or.inl (by simpa using h1)
      · rw [List.all_eq_false] at h1
        obtain ⟨dd, hdd, hddc⟩ := h1
        refine Or.inr ⟨dd, hdd, ?_⟩
        have : (packageKeys rem).contains dd = true := by
          cases hx : (packageKeys rem).contains dd
          · rw [hx] at hddc; simp at hddc
          · rfl
        exact (contains_iff_mem _ _).mp this
    case isFalse hne =>
      have hsl : (spec_step direct rem).length ≤ rem.length :=
        (List.filter_sublist rem).length_le
      have hlt : (spec_step direct rem).length < rem.length :=
        Nat.lt_of_le_of_ne hsl (fun hx => hne hx)
      exact ih (spec_step direct rem) (by omega)

/-- C1: for every lockfile state, collect_orphans returns exactly the keys
the specification's cascading sweep deletes: a key is in the result iff it is
not a direct install and is eventually removed by repeatedly deleting every
entry that is not a direct install and whose dependents, counted only among
entries still present in the working copy, are all absent. Orphan chains are
therefore all returned, and an entry kept alive, directly or transitively, by
a surviving direct install is never returned. -/
theorem collect_orphans_iff_spec_sweep :
    ∀ lf : Lockfile, (packageKeys lf.packages).Nodup →
      ∀ k : String,
        k ∈ lf.collect_orphans ↔
          (lf.is_direct_install k = false ∧
            spec_eventually_removed lf.direct_installs lf.packages k) := by
  intro lf hnd k
  set direct := lf.direct_installs
  set pk := lf.packages
  set res1 := sweepIter direct (pk.length + 1) pk
  set res2 := spec_final direct pk
  have hstable1 : StableSet direct res1.2 :=
    sweepIter_final_stable direct (pk.length + 1) pk (by omega)
  have hstable2 : StableSet direct res2 :=
    spec_sweep_final_stable direct pk.length pk (Nat.le_refl _)
  have hsub1 : ∀ p ∈ res1.2, p ∈ pk := sweepIter_subset direct (pk.length + 1) pk
  have hsub2 : ∀ p ∈ res2, p ∈ pk := spec_sweep_subset direct pk.length pk
  have h12 : ∀ p ∈ res1.2, p ∈ res2 :=
    spec_sweep_stable_subset direct res1.2 hstable1 pk.length pk hsub1
  have h21 : ∀ p ∈ res2, p ∈ res1.2 :=
    sweepIter_stable_subset direct res2 hstable2 (pk.length + 1) pk hsub2
  have hkeys : ∀ k2, k2 ∈ packageKeys res1.2 ↔ k2 ∈ packageKeys res2 := by
    intro k2
    constructor
    · intro h
      rcases mem_packageKeys.mp h with ⟨p, hp, hpk⟩
      exact mem_packageKeys.mpr ⟨p, h12 p hp, hpk⟩
    · intro h
      rcases mem_packageKeys.mp h with ⟨p, hp, hpk⟩
      exact mem_packageKeys.mpr ⟨p, h21 p hp, hpk⟩
  have hperm : (packageKeys pk).Perm (res1.1 ++ packageKeys res1.2) :=
    sweepIter_keys_perm direct (pk.length + 1) pk
  have hnd2 : (res1.1 ++ packageKeys res1.2).Nodup := hperm.nodup_iff.mp hnd
  constructor
  · intro hk
    have hk1 : k ∈ res1.1 ++ packageKeys res1.2 := List.mem_append.mpr (Or.inl hk)
    have hkpk : k ∈ packageKeys pk := hperm.mem_iff.mpr hk1
    have hnotin1 : k ∉ packageKeys res1.2 :=
      List.disjoint_of_nodup_append hnd2 hk
    refine ⟨sweepIter_orphans_not_direct direct (pk.length + 1) pk k hk,
      hkpk, ?_⟩
    intro hin2
    exact hnotin1 ((hkeys k).mpr hin2)
  · rintro ⟨-, hkpk, hnotin2⟩
    have hnotin1 : k ∉ packageKeys res1.2 := fun hx => hnotin2 ((hkeys k).mp hx)
    have hk1 : k ∈ res1.1 ++ packageKeys res1.2 := hperm.mem_iff.mp hkpk
    rcases List.mem_append.mp hk1 with h1 | h1
    · exact h1
    · exact absurd h1 hnotin1

/-- Witness for C1 on the orphan chain a, b, c with no direct installs: the
chain end c is returned, as the iff demands. -/
theorem collect_orphans_iff_spec_sweep_witness :
    (packageKeys lfChain.packages).Nodup ∧
    ("skill:c:1.0.0" ∈ lfChain.collect_orphans) ∧
    ("skill:c:1.0.0" ∈ lfChain.collect_orphans ↔
      (lfChain.is_direct_install "skill:c:1.0.0" = false ∧
        spec_eventually_removed lfChain.direct_installs lfChain.packages
          "skill:c:1.0.0")) :=
  ⟨by decide, by decide,
    collect_orphans_iff_spec_sweep lfChain (by decide) "skill:c:1.0.0"⟩

/-! ## Resolver helper lemmas -/

theorem except_bind_ok {ε α β : Type} (a : α) (f : α → Except ε β) :
    (Except.ok a >>= f) = f a := rfl

theorem except_bind_err {ε α β : Type} (e : ε) (f : α → Except ε β) :
    ((Except.error e : Except ε α) >>= f) = Except.error e := rfl

theorem liftValue_ok_iff {α : Type} (x : Except String α) (a : α) :
    liftValue x = .ok a ↔ x = .ok a := by
  cases x <;> simp [liftValue]

theorem contains_key_iff (l : List PkgKey) (k : PkgKey) :
    l.contains k = true ↔ k ∈ l := by
  simp [List.contains, List.elem_iff]

/-- Success inversion for one resolvePkg call at positive fuel. -/
theorem resolvePkg_ok_inv (env : ResolverEnv) (fuel : Nat)
    (visiting : List PkgKey) (resolved : List (PkgKey × ResolvedPackage))
    (k s : String) (c : Option DependencySpec)
    (out : List (PkgKey × ResolvedPackage))
    (h : resolvePkg env (fuel + 1) visiting resolved k s c = .ok out) :
    ((resolved.lookup (k, s)).isSome = true ∧ out = resolved) ∨
    (resolved.lookup (k, s) = none ∧ (k, s) ∉ visiting ∧
      ∃ cands best tail resolvedAfter,
        filterCandidates c (indexGet env (k, s)) = .ok cands ∧
        (∃ ps, checkParsable cands = .ok ps) ∧
        sortCandidates cands = best :: tail ∧
        (env.deps k best.2.1).foldlM
          (fun acc ds => resolvePkg env fuel ((k, s) :: visiting) acc
            ds.1 ds.2.slug (some ds.2)) resolved = .ok resolvedAfter ∧
        out = resolvedAfter ++ [((k, s),
          { kind := k, slug := s, version := best.1,
            path := best.2.1, source := best.2.2 })]) := by
  rw [resolvePkg] at h
  split at h
  case isTrue hm =>
    left
    refine ⟨hm, ?_⟩
    simpa using h.symm
  case isFalse hm =>
    right
    split at h
    case isTrue hv => exact absurd h (by simp)
    case isFalse hv =>
      refine ⟨Option.not_isSome_iff_eq_none.mp (by simpa using hm), ?_, ?_⟩
      · intro hin
        exact hv ((contains_key_iff visiting (k, s)).mpr hin)
      · cases hf : filterCandidates c (indexGet env (k, s)) with
        | error e => rw [hf, except_bind_err] at h; exact absurd h (by simp)
        | ok cands =>
          rw [hf, except_bind_ok] at h
          cases hcp : checkParsable cands with
          | error e => rw [hcp, except_bind_err] at h; exact absurd h (by simp)
          | ok ps =>
            rw [hcp, except_bind_ok] at h
            split at h
            case h_1 => exact absurd h (by simp)
            case h_2 best tail hms =>
              cases hfold : (env.deps k best.2.1).foldlM
                  (fun acc ds => resolvePkg env fuel ((k, s) :: visiting) acc
                    ds.1 ds.2.slug (some ds.2)) resolved with
              | error e =>
                rw [hfold, except_bind_err] at h
                exact absurd h (by simp)
              | ok resolvedAfter =>
                rw [hfold, except_bind_ok] at h
                refine ⟨cands, best, tail, resolvedAfter, rfl, ⟨ps, hcp⟩, hms,
                  hfold, ?_⟩
                simpa using h.symm

theorem runGrowth_refl (visiting : List PkgKey)
    (resolved : List (PkgKey × ResolvedPackage)) :
    RunGrowth visiting resolved resolved := by
  refine ⟨fun p hp => hp, fun p hp => Or.inl hp, fun h => h⟩

theorem runGrowth_trans {visiting : List PkgKey}
    {a b c : List (PkgKey × ResolvedPackage)}
    (h1 : RunGrowth visiting a b) (h2 : RunGrowth visiting b c) :
    RunGrowth visiting a c := by
  obtain ⟨m1, n1, d1⟩ := h1
  obtain ⟨m2, n2, d2⟩ := h2
  refine ⟨fun p hp => m2 p (m1 p hp), ?_, fun h => d2 (d1 h)⟩
  intro p hp
  rcases n2 p hp with h3 | ⟨hv, hk, hf1, hf2⟩
  · exact n1 p h3
  · refine Or.inr ⟨hv, ?_, hf1, hf2⟩
    intro hmem
    rcases List.mem_map.mp hmem with ⟨q, hq, hqk⟩
    exact hk (List.mem_map.mpr ⟨q, m1 q hq, hqk⟩)

/-- RunGrowth for a dependency fold, given it for each inner call. -/
theorem foldlM_runGrowth (env : ResolverEnv) (fuel : Nat)
    (visiting2 : List PkgKey)
    (hcall : ∀ acc k s c out,
      resolvePkg env fuel visiting2 acc k s c = .ok out →
      RunGrowth visiting2 acc out) :
    ∀ (dsl : List (String × DependencySpec))
      (acc out : List (PkgKey × ResolvedPackage)),
      dsl.foldlM (fun a ds => resolvePkg env fuel visiting2 a
        ds.1 ds.2.slug (some ds.2)) acc = .ok out →
      RunGrowth visiting2 acc out := by
  intro dsl
  induction dsl with
  | nil =>
    intro acc out h
    rw [List.foldlM_nil] at h
    have : acc = out := by simpa [pure, Except.pure] using h
    rw [this] at *
    exact runGrowth_refl _ _
  | cons d rest ih =>
    intro acc out h
    rw [List.foldlM_cons] at h
    cases hstep : resolvePkg env fuel visiting2 acc d.1 d.2.slug (some d.2) with
    | error e => rw [hstep, except_bind_err] at h; exact absurd h (by simp)
    | ok mid =>
      rw [hstep, except_bind_ok] at h
      exact runGrowth_trans (hcall acc d.1 d.2.slug (some d.2) mid hstep)
        (ih mid out h)

/-- Every successful resolvePkg call satisfies RunGrowth: the resolved map
only grows, every new entry's key is off the visiting path and fresh, new
entries record their own kind and slug, and key uniqueness is preserved. -/
theorem resolvePkg_runGrowth (env : ResolverEnv) :
    ∀ (fuel : Nat) (visiting : List PkgKey)
      (resolved : List (PkgKey × ResolvedPackage)) (k s : String)
      (c : Option DependencySpec) (out : List (PkgKey × ResolvedPackage)),
      resolvePkg env fuel visiting resolved k s c = .ok out →
      RunGrowth visiting resolved out := by
  intro fuel
  induction fuel with
  | zero =>
    intro visiting resolved k s c out h
    rw [resolvePkg] at h
    exact absurd h (by simp)
  | succ fuel ih =>
    intro visiting resolved k s c out h
    rcases resolvePkg_ok_inv env fuel visiting resolved k s c out h with
      ⟨-, hout⟩ | ⟨hnone, hnvis, cands, best, tail, resolvedAfter, -, -, -,
        hfold, hout⟩
    · rw [hout]; exact runGrowth_refl _ _
    · have hfoldg : RunGrowth ((k, s) :: visiting) resolved resolvedAfter :=
        foldlM_runGrowth env fuel ((k, s) :: visiting)
          (fun acc k2 s2 c2 out2 hh => ih _ acc k2 s2 c2 out2 hh)
          (env.deps k best.2.1) resolved resolvedAfter hfold
      obtain ⟨m1, n1, d1⟩ := hfoldg
      have hknotafter : (k, s) ∉ resolvedKeys resolvedAfter := by
        intro hmem
        rcases List.mem_map.mp hmem with ⟨q, hq, hqk⟩
        rcases n1 q hq with h3 | ⟨hv, -, -, -⟩
        · have : ((k, s) : PkgKey) ∈ resolvedKeys resolved :=
            List.mem_map.mpr ⟨q, h3, hqk⟩
          have := lookup_isSome_of_mem_keys this
          rw [hnone] at this
          simp at this
        · exact hv (hqk ▸ List.mem_cons_self _ _)
      rw [hout]
      refine ⟨?_, ?_, ?_⟩
      · intro p hp
        exact List.mem_append.mpr (Or.inl (m1 p hp))
      · intro p hp
        rcases List.mem_append.mp hp with h1 | h1
        · rcases n1 p h1 with h2 | ⟨hv, hk, hf1, hf2⟩
          · exact Or.inl h2
          · exact Or.inr ⟨fun hx => hv (List.mem_cons_of_mem _ hx), hk, hf1, hf2⟩
        · have hp2 : p = ((k, s),
              { kind := k, slug := s, version := best.1,
                path := best.2.1, source := best.2.2 }) := by simpa using h1
          refine Or.inr ⟨?_, ?_, ?_, ?_⟩
          · rw [hp2]; exact hnvis
          · rw [hp2]
            intro hmem
            have := lookup_isSome_of_mem_keys hmem
            rw [hnone] at this
            simp at this
          · rw [hp2]
          · rw [hp2]
      · intro hnd
        have hnd2 := d1 hnd
        have : resolvedKeys (resolvedAfter ++ [((k, s),
            { kind := k, slug := s, version := best.1,
              path := best.2.1, source := best.2.2 })])
            = resolvedKeys resolvedAfter ++ [(k, s)] := by
          simp [resolvedKeys]
        rw [this]
        apply List.Nodup.append hnd2 (by simp)
        intro q hq hq2
        have : q = ((k, s) : PkgKey) := by simpa using hq2
        rw [this] at hq
        exact hknotafter hq

/-! ## Version-choice lemmas -/

theorem compare_versions_nonneg_iff (a b : ParsedVersion) :
    0 ≤ compare_versions a b ↔ pvLe b a := by
  unfold compare_versions pvLe
  split_ifs <;> omega

theorem versionDescLe_refl (a : IndexEntry3) : versionDescLe a a = true := by
  unfold versionDescLe
  simp only [decide_eq_true_eq, compare_versions_nonneg_iff]
  unfold pvLe
  omega

theorem versionDescLe_trans (a b c : IndexEntry3)
    (h1 : versionDescLe a b = true) (h2 : versionDescLe b c = true) :
    versionDescLe a c = true := by
  unfold versionDescLe at *
  simp only [decide_eq_true_eq, compare_versions_nonneg_iff] at *
  unfold pvLe at *
  omega

theorem versionDescLe_total (a b : IndexEntry3) :
    versionDescLe a b = true ∨ versionDescLe b a = true := by
  unfold versionDescLe
  simp only [decide_eq_true_eq, compare_versions_nonneg_iff]
  unfold pvLe
  omega

theorem filterSat_ok_mem (c : DependencySpec) :
    ∀ (l r : List IndexEntry3), filterSat c l = .ok r →
      ∀ e, e ∈ r ↔ (e ∈ l ∧ satisfies_version e.1 c = .ok true) := by
  intro l
  induction l with
  | nil =>
    intro r h e
    rw [filterSat] at h
    have : r = [] := by simpa using h.symm
    simp [this]
  | cons e0 rest ih =>
    intro r h e
    rw [filterSat] at h
    cases hsat : satisfies_version e0.1 c with
    | error m =>
      have hl : liftValue (satisfies_version e0.1 c)
          = (.error (.valueError m) : Except PyErr Bool) := by rw [hsat]; rfl
      rw [hl] at h
      exact absurd h (by simp [except_bind_err])
    | ok b =>
      have hl : liftValue (satisfies_version e0.1 c)
          = (.ok b : Except PyErr Bool) := by rw [hsat]; rfl
      rw [hl, except_bind_ok] at h
      cases hrec : filterSat c rest with
      | error m => rw [hrec, except_bind_err] at h; exact absurd h (by simp)
      | ok r0 =>
        rw [hrec, except_bind_ok] at h
        have hr : r = if b then e0 :: r0 else r0 := by simpa using h.symm
        cases b with
        | true =>
          have hr2 : r = e0 :: r0 := by simpa using hr
          rw [hr2]
          constructor
          · intro hm
            rcases List.mem_cons.mp hm with h1 | h1
            · exact ⟨List.mem_cons.mpr (Or.inl h1), by rw [h1]; exact hsat⟩
            · obtain ⟨hm2, hs2⟩ := (ih r0 hrec e).mp h1
              exact ⟨List.mem_cons_of_mem _ hm2, hs2⟩
          · rintro ⟨hm, hs⟩
            rcases List.mem_cons.mp hm with h1 | h1
            · exact List.mem_cons.mpr (Or.inl h1)
            · exact List.mem_cons_of_mem _ ((ih r0 hrec e).mpr ⟨h1, hs⟩)
        | false =>
          have hr2 : r = r0 := by simpa using hr
          rw [hr2]
          constructor
          · intro hm
            obtain ⟨hm2, hs2⟩ := (ih r0 hrec e).mp hm
            exact ⟨List.mem_cons_of_mem _ hm2, hs2⟩
          · rintro ⟨hm, hs⟩
            rcases List.mem_cons.mp hm with h1 | h1
            · rw [h1] at hs
              rw [hs] at hsat
              simp at hsat
            · exact (ih r0 hrec e).mpr ⟨h1, hs⟩

theorem filterCandidates_ok_mem (c : Option DependencySpec)
    (l r : List IndexEntry3) (h : filterCandidates c l = .ok r) :
    ∀ e, e ∈ r ↔ (e ∈ l ∧ SatOk c e.1) := by
  cases c with
  | none =>
    have : r = l := by simpa [filterCandidates] using h.symm
    intro e
    simp [this, SatOk]
  | some sp =>
    intro e
    have := filterSat_ok_mem sp l r (by simpa [filterCandidates] using h) e
    simpa [SatOk] using this

theorem checkParsable_ok_parses :
    ∀ (l : List IndexEntry3) (ps : List ParsedVersion),
      checkParsable l = .ok ps → ∀ e ∈ l, ∃ p, parse_version e.1 = .ok p := by
  intro l
  induction l with
  | nil => intro ps h e he; simp at he
  | cons e0 rest ih =>
    intro ps h e he
    rw [checkParsable] at h
    cases hp : parse_version e0.1 with
    | error m =>
      have hl : liftValue (parse_version e0.1)
          = (.error (.valueError m) : Except PyErr ParsedVersion) := by
        rw [hp]; rfl
      rw [hl, except_bind_err] at h
      exact absurd h (by simp)
    | ok p0 =>
      have hl : liftValue (parse_version e0.1)
          = (.ok p0 : Except PyErr ParsedVersion) := by rw [hp]; rfl
      rw [hl, except_bind_ok] at h
      cases hrec : checkParsable rest with
      | error m => rw [hrec, except_bind_err] at h; exact absurd h (by simp)
      | ok ps0 =>
        rcases List.mem_cons.mp he with h1 | h1
        · exact ⟨p0, by rw [h1]; exact hp⟩
        · exact ih ps0 hrec e h1

theorem pvOf_eq {v : String} {p : ParsedVersion}
    (h : parse_version v = .ok p) : pvOf v = p := by
  unfold pvOf
  rw [h]

theorem sortCandidates_head_best (l : List IndexEntry3) (best : IndexEntry3)
    (tail : List IndexEntry3) (h : sortCandidates l = best :: tail) :
    best ∈ l ∧ ∀ e ∈ l, versionDescLe best e = true := by
  have hperm := List.perm_insertionSort
    (fun x y => versionDescLe x y = true) l
  rw [sortCandidates] at h
  rw [h] at hperm
  constructor
  · exact hperm.mem_iff.mp (List.mem_cons_self _ _)
  · intro e he
    have he2 : e ∈ best :: tail := hperm.mem_iff.mpr he
    rcases List.mem_cons.mp he2 with h1 | h1
    · rw [h1]; exact versionDescLe_refl best
    · haveI htot : IsTotal IndexEntry3 (fun x y => versionDescLe x y = true) :=
        ⟨fun a b => versionDescLe_total a b⟩
      haveI htr : IsTrans IndexEntry3 (fun x y => versionDescLe x y = true) :=
        ⟨fun a b c => versionDescLe_trans a b c⟩
      have hs := List.sorted_insertionSort
        (fun x y => versionDescLe x y = true) l
      rw [h] at hs
      exact (List.pairwise_cons.mp hs).1 e h1

theorem lookup_eq_none_of_not_mem_keys {α β : Type} [BEq α] [LawfulBEq α]
    {l : List (α × β)} {k : α} (h : k ∉ l.map Prod.fst) :
    l.lookup k = none := by
  rw [List.lookup_eq_none_iff]
  intro p hp
  have : k ≠ p.1 := by
    intro he
    exact h (List.mem_map.mpr ⟨p, hp, he.symm⟩)
  simpa [bne_iff_ne] using this

/-! ## C3: the resolver picks the highest satisfying version for each node -/

/-- C3: whenever a resolvePkg call resolves a node that was not already in
the memo, the entry it records for that node is an index candidate whose
version satisfies the incoming constraint and is greatest, under
compare_versions, among all candidates that satisfy it. -/
theorem resolvePkg_selects_highest_satisfying :
    ∀ (env : ResolverEnv) (fuel : Nat) (visiting : List PkgKey)
      (resolved : List (PkgKey × ResolvedPackage)) (k s : String)
      (c : Option DependencySpec) (out : List (PkgKey × ResolvedPackage)),
      resolvePkg env fuel visiting resolved k s c = .ok out →
      (k, s) ∉ resolvedKeys resolved →
      ∃ e ∈ indexGet env (k, s),
        SatOk c e.1 ∧
        out.lookup (k, s) =
          some { kind := k, slug := s, version := e.1,
                 path := e.2.1, source := e.2.2 } ∧
        ∀ e2 ∈ indexGet env (k, s), SatOk c e2.1 → VersionGeStr e.1 e2.1 := by
  intro env fuel visiting resolved k s c out h hnk
  cases fuel with
  | zero => rw [resolvePkg] at h; exact absurd h (by simp)
  | succ fuel =>
    rcases resolvePkg_ok_inv env fuel visiting resolved k s c out h with
      ⟨hsome, -⟩ | ⟨hnone, hnvis, cands, best, tail, resolvedAfter, hf,
        ⟨ps, hcp⟩, hms, hfold, hout⟩
    · refine absurd ?_ hnk
      have := mem_keys_of_lookup_isSome hsome
      simpa [resolvedKeys] using this
    · have hbest := sortCandidates_head_best cands best tail hms
      have hmemiff := filterCandidates_ok_mem c (indexGet env (k, s)) cands hf
      obtain ⟨hbestidx, hbestsat⟩ := (hmemiff best).mp hbest.1
      have hknotafter : ((k, s) : PkgKey) ∉ resolvedKeys resolvedAfter := by
        have hg := foldlM_runGrowth env fuel ((k, s) :: visiting)
          (fun acc k2 s2 c2 out2 hh =>
            resolvePkg_runGrowth env fuel ((k, s) :: visiting) acc k2 s2 c2 out2 hh)
          (env.deps k best.2.1) resolved resolvedAfter hfold
        obtain ⟨-, n1, -⟩ := hg
        intro hmem
        rcases List.mem_map.mp hmem with ⟨q, hq, hqk⟩
        rcases n1 q hq with h3 | ⟨hv, -, -, -⟩
        · have : ((k, s) : PkgKey) ∈ resolved.map Prod.fst :=
            List.mem_map.mpr ⟨q, h3, hqk⟩
          have := lookup_isSome_of_mem_keys this
          rw [hnone] at this
          simp at this
        · exact hv (hqk ▸ List.mem_cons_self _ _)
      refine ⟨best, hbestidx, hbestsat, ?_, ?_⟩
      · rw [hout]
        rw [lookup_append_of_none
          (lookup_eq_none_of_not_mem_keys
            (by simpa [resolvedKeys] using hknotafter))]
        simp [List.lookup_cons]
      · intro e2 he2 hsat2
        have he2c : e2 ∈ cands := (hmemiff e2).mpr ⟨he2, hsat2⟩
        have hle := hbest.2 e2 he2c
        obtain ⟨pb, hpb⟩ := checkParsable_ok_parses cands ps hcp best hbest.1
        obtain ⟨p2, hp2⟩ := checkParsable_ok_parses cands ps hcp e2 he2c
        refine ⟨pb, p2, hpb, hp2, ?_⟩
        unfold versionDescLe at hle
        rw [pvOf_eq hpb, pvOf_eq hp2] at hle
        simpa using hle

/-- Witness for C3: with git-workflow installed at 1.0.0, 1.4.0 and 2.0.0 and
an incoming constraint git-workflow^1.0.0, the node resolves to 1.4.0, not
2.0.0, and resolving the dependent role reports git-workflow 1.4.0. -/
theorem resolvePkg_selects_highest_satisfying_witness :
    (∃ e ∈ indexGet envCaret ("skill", "git-workflow"),
      SatOk (some ⟨"git-workflow", .caret, some "1.0.0"⟩) e.1 ∧
      ([(("skill", "git-workflow"),
          { kind := "skill", slug := "git-workflow", version := "1.4.0",
            path := "p2", source := "local" })]
        : List (PkgKey × ResolvedPackage)).lookup ("skill", "git-workflow")
        = some { kind := "skill", slug := "git-workflow", version := e.1,
                 path := e.2.1, source := e.2.2 } ∧
      ∀ e2 ∈ indexGet envCaret ("skill", "git-workflow"),
        SatOk (some ⟨"git-workflow", .caret, some "1.0.0"⟩) e2.1 →
        VersionGeStr e.1 e2.1) ∧
    (resolveWithIndex envCaret "implementer" (some "role") none).map
      (fun r => r.dependencies.map (fun d => (d.slug, d.version)))
      = .ok [("git-workflow", "1.4.0")] :=
  ⟨resolvePkg_selects_highest_satisfying envCaret 3 [] [] "skill"
      "git-workflow" (some ⟨"git-workflow", .caret, some "1.0.0"⟩)
      [(("skill", "git-workflow"),
        { kind := "skill", slug := "git-workflow", version := "1.4.0",
          path := "p2", source := "local" })]
      (by rfl) (by simp [resolvedKeys]),
    by rfl⟩

/-! ## C4: circular dependencies are detected and the walk terminates -/

theorem resolvePkg_circular_of_visiting (env : ResolverEnv) (fuel : Nat)
    (visiting : List PkgKey) (resolved : List (PkgKey × ResolvedPackage))
    (k s : String) (c : Option DependencySpec)
    (hnone : resolved.lookup (k, s) = none) (hin : (k, s) ∈ visiting) :
    resolvePkg env (fuel + 1) visiting resolved k s c
      = .error (.dependency (circularMsg k s)) := by
  rw [resolvePkg, hnone, (contains_key_iff visiting (k, s)).mpr hin]
  simp

theorem filterSat_error_value (c : DependencySpec) :
    ∀ (l : List IndexEntry3) (e : PyErr), filterSat c l = .error e →
      ∃ m, e = .valueError m := by
  intro l
  induction l with
  | nil => intro e h; rw [filterSat] at h; simp at h
  | cons e0 rest ih =>
    intro e h
    rw [filterSat] at h
    cases hsat : satisfies_version e0.1 c with
    | error m =>
      have hl : liftValue (satisfies_version e0.1 c)
          = (.error (.valueError m) : Except PyErr Bool) := by rw [hsat]; rfl
      rw [hl, except_bind_err] at h
      exact ⟨m, by simpa using h.symm⟩
    | ok b =>
      have hl : liftValue (satisfies_version e0.1 c)
          = (.ok b : Except PyErr Bool) := by rw [hsat]; rfl
      rw [hl, except_bind_ok] at h
      cases hrec : filterSat c rest with
      | error m2 =>
        rw [hrec, except_bind_err] at h
        obtain ⟨m3, hm3⟩ := ih m2 hrec
        exact ⟨m3, by rw [← hm3]; simpa using h.symm⟩
      | ok r0 => rw [hrec, except_bind_ok] at h; simp at h

theorem filterCandidates_error_value (c : Option DependencySpec)
    (l : List IndexEntry3) (e : PyErr)
    (h : filterCandidates c l = .error e) : ∃ m, e = .valueError m := by
  cases c with
  | none => simp [filterCandidates] at h
  | some sp => exact filterSat_error_value sp l e (by simpa [filterCandidates] using h)

theorem checkParsable_error_value :
    ∀ (l : List IndexEntry3) (e : PyErr), checkParsable l = .error e →
      ∃ m, e = .valueError m := by
  intro l
  induction l with
  | nil => intro e h; rw [checkParsable] at h; simp at h
  | cons e0 rest ih =>
    intro e h
    rw [checkParsable] at h
    cases hp : parse_version e0.1 with
    | error m =>
      have hl : liftValue (parse_version e0.1)
          = (.error (.valueError m) : Except PyErr ParsedVersion) := by
        rw [hp]; rfl
      rw [hl, except_bind_err] at h
      exact ⟨m, by simpa using h.symm⟩
    | ok p0 =>
      have hl : liftValue (parse_version e0.1)
          = (.ok p0 : Except PyErr ParsedVersion) := by rw [hp]; rfl
      rw [hl, except_bind_ok] at h
      cases hrec : checkParsable rest with
      | error m2 =>
        rw [hrec, except_bind_err] at h
        obtain ⟨m3, hm3⟩ := ih m2 hrec
        exact ⟨m3, by rw [← hm3]; simpa using h.symm⟩
      | ok ps0 => rw [hrec, except_bind_ok] at h; simp at h

/-- With a fuel budget exceeding the number of index keys not yet on the
visiting path, the depth-first walk never exhausts its budget: the visiting
path only ever collects distinct index keys. -/
theorem resolvePkg_no_fuel (env : ResolverEnv) :
    ∀ (fuel : Nat) (visiting : List PkgKey)
      (resolved : List (PkgKey × ResolvedPackage)) (k s : String)
      (c : Option DependencySpec),
      visiting.Nodup → (∀ v ∈ visiting, v ∈ env.index.map Prod.fst) →
      env.index.length < fuel + visiting.length →
      resolvePkg env fuel visiting resolved k s c ≠ .error .fuel := by
  intro fuel
  induction fuel with
  | zero =>
    intro visiting resolved k s c hnd hsub hlen
    have hle : visiting.length ≤ (env.index.map Prod.fst).length :=
      (hnd.subperm hsub).length_le
    rw [List.length_map] at hle
    omega
  | succ fuel ih =>
    intro visiting resolved k s c hnd hsub hlen h
    rw [resolvePkg] at h
    split at h
    · simp at h
    split at h
    · simp at h
    case isFalse hm hv =>
      cases hf : filterCandidates c (indexGet env (k, s)) with
      | error e =>
        rw [hf, except_bind_err] at h
        obtain ⟨m, hm2⟩ := filterCandidates_error_value c _ e hf
        rw [hm2] at h
        simp at h
      | ok cands =>
        rw [hf, except_bind_ok] at h
        cases hcp : checkParsable cands with
        | error e =>
          rw [hcp, except_bind_err] at h
          obtain ⟨m, hm2⟩ := checkParsable_error_value cands e hcp
          rw [hm2] at h
          simp at h
        | ok ps =>
          rw [hcp, except_bind_ok] at h
          split at h
          case h_1 => simp at h
          case h_2 best tail hms =>
            have hbestin : best ∈ indexGet env (k, s) := by
              have hperm := List.perm_insertionSort
                (fun x y => versionDescLe x y = true) cands
              rw [sortCandidates] at hms
              rw [hms] at hperm
              exact ((filterCandidates_ok_mem c _ cands hf best).mp
                (hperm.mem_iff.mp (List.mem_cons_self _ _))).1
            have hksome : (env.index.lookup (k, s)).isSome = true := by
              cases hx : env.index.lookup (k, s) with
              | none =>
                rw [indexGet, indexFind, hx] at hbestin
                simp at hbestin
              | some l2 => rfl
            have hkmem : ((k, s) : PkgKey) ∈ env.index.map Prod.fst :=
              mem_keys_of_lookup_isSome hksome
            have hknv : ((k, s) : PkgKey) ∉ visiting := by
              intro hx
              exact hv ((contains_key_iff visiting (k, s)).mpr hx)
            have hstep : ∀ (acc : List (PkgKey × ResolvedPackage))
                (k2 s2 : String) (c2 : Option DependencySpec),
                resolvePkg env fuel ((k, s) :: visiting) acc k2 s2 c2
                  ≠ .error .fuel := by
              intro acc k2 s2 c2
              refine ih ((k, s) :: visiting) acc k2 s2 c2
                (List.nodup_cons.mpr ⟨hknv, hnd⟩) ?_ ?_
              · intro v hvmem
                rcases List.mem_cons.mp hvmem with h1 | h1
                · rw [h1]; exact hkmem
                · exact hsub v h1
              · simp only [List.length_cons]
                omega
            have hfold : ∀ (dsl : List (String × DependencySpec))
                (acc : List (PkgKey × ResolvedPackage)),
                dsl.foldlM (fun a ds => resolvePkg env fuel
                  ((k, s) :: visiting) a ds.1 ds.2.slug (some ds.2)) acc
                  ≠ .error .fuel := by
              intro dsl
              induction dsl with
              | nil => intro acc hx; rw [List.foldlM_nil] at hx; simp [pure, Except.pure] at hx
              | cons d rest ihd =>
                intro acc hx
                rw [List.foldlM_cons] at hx
                cases hs2 : resolvePkg env fuel ((k, s) :: visiting) acc
                    d.1 d.2.slug (some d.2) with
                | error e2 =>
                  rw [hs2, except_bind_err] at hx
                  have : e2 = PyErr.fuel := by simpa using hx
                  exact hstep acc d.1 d.2.slug (some d.2) (this ▸ hs2)
                | ok mid =>
                  rw [hs2, except_bind_ok] at hx
                  exact ihd mid hx
            cases hfd : (env.deps k best.2.1).foldlM
                (fun a ds => resolvePkg env fuel ((k, s) :: visiting) a
                  ds.1 ds.2.slug (some ds.2)) resolved with
            | error e2 =>
              rw [hfd, except_bind_err] at h
              have : e2 = PyErr.fuel := by simpa using h
              exact hfold (env.deps k best.2.1) resolved (this ▸ hfd)
            | ok resolvedAfter =>
              rw [hfd, except_bind_ok] at h
              simp at h

theorem resolveKind_error_dep (env : ResolverEnv) (slug : String)
    (ko : Option String) (e : PyErr) (h : resolveKind env slug ko = .error e) :
    ∃ m, e = .dependency m := by
  cases ko with
  | some k => simp [resolveKind] at h
  | none =>
    rw [resolveKind] at h
    split at h
    · simp at h
    split at h
    · simp at h
    · exact ⟨_, by simpa using h.symm⟩

theorem checkRoot_error_dep (kind slug : String) (cands : List IndexEntry3)
    (vo : Option String) (e : PyErr) (h : checkRoot kind slug cands vo = .error e) :
    ∃ m, e = .dependency m := by
  cases vo with
  | none =>
    rw [checkRoot] at h
    split at h
    · exact ⟨_, by simpa using h.symm⟩
    · simp at h
  | some v =>
    rw [checkRoot] at h
    split at h
    · exact ⟨_, by simpa using h.symm⟩
    split at h
    · simp at h
    · exact ⟨_, by simpa using h.symm⟩

/-- The full resolve call never reports fuel exhaustion: its budget, one more
than the number of index keys, always suffices. -/
theorem resolveWithIndex_no_fuel (env : ResolverEnv) (slug : String)
    (kindOpt versionOpt : Option String) :
    resolveWithIndex env slug kindOpt versionOpt ≠ .error .fuel := by
  intro h
  rw [resolveWithIndex] at h
  cases hk : resolveKind env slug kindOpt with
  | error e =>
    rw [hk] at h
    obtain ⟨m, hm⟩ := resolveKind_error_dep env slug kindOpt e hk
    rw [hm] at h
    simp [except_bind_err] at h
  | ok kind =>
    rw [hk, except_bind_ok] at h
    cases hcr : checkRoot kind slug (indexGet env (kind, slug)) versionOpt with
    | error e =>
      rw [hcr, except_bind_err] at h
      obtain ⟨m, hm⟩ := checkRoot_error_dep kind slug _ versionOpt e hcr
      rw [hm] at h
      simp at h
    | ok u =>
      rw [hcr, except_bind_ok] at h
      cases hrp : resolvePkg env (resolveFuel env) [] [] kind slug
          (versionOpt.map fun v => DependencySpec.mk slug .eq (some v)) with
      | error e =>
        rw [hrp, except_bind_err] at h
        have he : e = PyErr.fuel := by simpa using h
        refine resolvePkg_no_fuel env (resolveFuel env) [] [] kind slug _
          List.nodup_nil (by intro v hv; simp at hv) ?_ (he ▸ hrp)
        rw [resolveFuel]
        omega
      | ok resolved =>
        rw [hrp, except_bind_ok] at h
        split at h
        · simp at h
        · simp at h

/-- The two mutually dependent skills raise the circular-dependency error
naming the requested root. -/
theorem mutual_pair_circular (a b va vb pa pb : String)
    (hab : a ≠ b) (hpab : pa ≠ pb)
    (hva : ∃ p, parse_version va = .ok p) (hvb : ∃ p, parse_version vb = .ok p) :
    resolveWithIndex (mutualEnv a b va vb pa pb) a (some "skill") none
      = .error (.dependency (circularMsg "skill" a)) := by
  obtain ⟨qa, hqa⟩ := hva
  obtain ⟨qb, hqb⟩ := hvb
  have hba : b ≠ a := Ne.symm hab
  have hpba : pb ≠ pa := Ne.symm hpab
  have hlqa : liftValue (parse_version va)
      = (.ok qa : Except PyErr ParsedVersion) := by rw [hqa]; rfl
  have hlqb : liftValue (parse_version vb)
      = (.ok qb : Except PyErr ParsedVersion) := by rw [hqb]; rfl
  have hkb : ((("skill", b) : PkgKey) == ("skill", a)) = false := by
    refine beq_eq_false_iff_ne.mpr ?_
    intro hx
    exact hba (congrArg Prod.snd hx)
  have hc3 : resolvePkg (mutualEnv a b va vb pa pb) 1
      [("skill", b), ("skill", a)] [] "skill" a
      (some ⟨a, .latest, none⟩)
      = .error (.dependency (circularMsg "skill" a)) :=
    resolvePkg_circular_of_visiting (mutualEnv a b va vb pa pb) 0
      [("skill", b), ("skill", a)] [] "skill" a (some ⟨a, .latest, none⟩)
      rfl (by simp)
  have hidx : indexGet (mutualEnv a b va vb pa pb) ("skill", b)
      = [(vb, pb, "local")] := by
    simp [indexGet, indexFind, mutualEnv, List.lookup_cons, hkb]
  have hfc : filterCandidates (some ⟨b, .latest, none⟩) [(vb, pb, "local")]
      = .ok [(vb, pb, "local")] := by
    simp [filterCandidates, filterSat, satisfies_version, liftValue,
      except_bind_ok]
  have hcp : checkParsable [(vb, pb, "local")] = .ok [qb] := by
    rw [checkParsable, hlqb, except_bind_ok, checkParsable, except_bind_ok]
  have hsort : sortCandidates [(vb, pb, "local")] = [(vb, pb, "local")] := rfl
  have hdeps : (mutualEnv a b va vb pa pb).deps "skill" pb
      = [("skill", ⟨a, .latest, none⟩)] := by
    simp [mutualEnv, mutualDeps, hpba]
  have hnv : (([("skill", a)] : List PkgKey).contains ("skill", b)) = false := by
    simp [hba]
  have hc2 : resolvePkg (mutualEnv a b va vb pa pb) 2
      [("skill", a)] [] "skill" b (some ⟨b, .latest, none⟩)
      = .error (.dependency (circularMsg "skill" a)) := by
    show resolvePkg (mutualEnv a b va vb pa pb) (1 + 1)
      [("skill", a)] [] "skill" b (some ⟨b, .latest, none⟩)
      = .error (.dependency (circularMsg "skill" a))
    rw [resolvePkg, hnv]
    simp only [List.lookup_nil, Option.isSome_none, Bool.false_eq_true,
      if_false, hidx, hfc, except_bind_ok, hcp, hsort, hdeps,
      List.foldlM_cons, hc3, except_bind_err]
  have hidxa : indexGet (mutualEnv a b va vb pa pb) ("skill", a)
      = [(va, pa, "local")] := by
    simp [indexGet, indexFind, mutualEnv, List.lookup_cons]
  have hcp0 : checkParsable [(va, pa, "local")] = .ok [qa] := by
    rw [checkParsable, hlqa, except_bind_ok, checkParsable, except_bind_ok]
  have hdeps0 : (mutualEnv a b va vb pa pb).deps "skill" pa
      = [("skill", ⟨b, .latest, none⟩)] := by
    simp [mutualEnv, mutualDeps]
  have hroot : resolvePkg (mutualEnv a b va vb pa pb) (2 + 1)
      [] [] "skill" a none
      = .error (.dependency (circularMsg "skill" a)) := by
    rw [resolvePkg]
    have hfc0 : filterCandidates none [(va, pa, "local")]
        = .ok [(va, pa, "local")] := rfl
    have hsort0 : sortCandidates [(va, pa, "local")] = [(va, pa, "local")] := rfl
    simp only [List.lookup_nil, Option.isSome_none, Bool.false_eq_true,
      if_false, List.contains_nil, hidxa, hfc0, except_bind_ok, hcp0,
      hsort0, hdeps0, List.foldlM_cons, hc2, except_bind_err]
  rw [resolveWithIndex]
  have hkind : resolveKind (mutualEnv a b va vb pa pb) a (some "skill")
      = .ok "skill" := rfl
  rw [hkind, except_bind_ok, hidxa]
  have hcheck : checkRoot "skill" a [(va, pa, "local")] none = .ok () := by
    simp [checkRoot]
  rw [hcheck, except_bind_ok]
  have hfuel : resolveFuel (mutualEnv a b va vb pa pb) = 2 + 1 := rfl
  rw [show (Option.map (fun v => DependencySpec.mk a .eq (some v)) none)
    = (none : Option DependencySpec) from rfl]
  rw [hfuel, hroot, except_bind_err]

/-- C4: whenever the depth-first walk reaches a package already on the
visiting path, it raises the circular-dependency DependencyError naming that
package; in particular resolving either of two installed skills that declare
each other as their only dependency raises it, naming the requested root; and
resolve never exhausts its recursion budget, so it cannot loop forever, and
in these cases it returns no result. -/
theorem resolve_circular_dependency_detected :
    (∀ (env : ResolverEnv) (fuel : Nat) (visiting : List PkgKey)
      (resolved : List (PkgKey × ResolvedPackage)) (k s : String)
      (c : Option DependencySpec),
      resolved.lookup (k, s) = none → (k, s) ∈ visiting →
      resolvePkg env (fuel + 1) visiting resolved k s c
        = .error (.dependency (circularMsg k s))) ∧
    (∀ a b va vb pa pb : String, a ≠ b → pa ≠ pb →
      (∃ p, parse_version va = .ok p) → (∃ p, parse_version vb = .ok p) →
      resolveWithIndex (mutualEnv a b va vb pa pb) a (some "skill") none
        = .error (.dependency (circularMsg "skill" a))) ∧
    (∀ (env : ResolverEnv) (slug : String) (kindOpt versionOpt : Option String),
      resolveWithIndex env slug kindOpt versionOpt ≠ .error .fuel) :=
  ⟨fun env fuel visiting resolved k s c hnone hin =>
      resolvePkg_circular_of_visiting env fuel visiting resolved k s c hnone hin,
   fun a b va vb pa pb hab hpab hva hvb =>
      mutual_pair_circular a b va vb pa pb hab hpab hva hvb,
   fun env slug kindOpt versionOpt =>
      resolveWithIndex_no_fuel env slug kindOpt versionOpt⟩

/-- Witness for C4: a concrete mutual pair raises the circular error naming
the root, a concrete visit of an already-visiting key raises it, and the
concrete call returns no fuel-exhaustion error. -/
theorem resolve_circular_dependency_detected_witness :
    (resolvePkg envBoth (0 + 1) [("skill", "x")] [] "skill" "x" none
      = .error (.dependency (circularMsg "skill" "x"))) ∧
    (resolveWithIndex (mutualEnv "a" "b" "1.0.0" "1.0.0" "pa" "pb") "a"
      (some "skill") none
      = .error (.dependency (circularMsg "skill" "a"))) ∧
    (resolveWithIndex envBoth "x" none none ≠ .error .fuel) :=
  ⟨resolve_circular_dependency_detected.1 envBoth 0 [("skill", "x")] [] "skill"
      "x" none rfl (by decide),
   resolve_circular_dependency_detected.2.1 "a" "b" "1.0.0" "1.0.0" "pa" "pb"
      (by decide) (by decide) ⟨⟨1, 0, 0⟩, rfl⟩ ⟨⟨1, 0, 0⟩, rfl⟩,
   resolve_circular_dependency_detected.2.2 envBoth "x" none none⟩

/-! ## C2: the dependencies list is the deduplicated transitive closure -/

theorem reachIn_mono (env : ResolverEnv)
    {m1 m2 : List (PkgKey × ResolvedPackage)} (hsub : ∀ x ∈ m1, x ∈ m2)
    {k1 k2 : PkgKey} (h : ReachIn env m1 k1 k2) : ReachIn env m2 k1 k2 := by
  induction h with
  | refl => exact ReachIn.refl _
  | step rp hr hm hc ih => exact ReachIn.step rp ih (hsub _ hm) hc

theorem reachIn_trans (env : ResolverEnv)
    {m : List (PkgKey × ResolvedPackage)} {k1 k2 k3 : PkgKey}
    (h1 : ReachIn env m k1 k2) (h2 : ReachIn env m k2 k3) :
    ReachIn env m k1 k3 := by
  induction h2 with
  | refl => exact h1
  | step rp hr hm hc ih => exact ReachIn.step rp ih hm hc

theorem resolvedKeys_subset {a b : List (PkgKey × ResolvedPackage)}
    (h : ∀ p ∈ a, p ∈ b) : ∀ q ∈ resolvedKeys a, q ∈ resolvedKeys b := by
  intro q hq
  rcases List.mem_map.mp hq with ⟨p, hp, hpk⟩
  exact List.mem_map.mpr ⟨p, h p hp, hpk⟩

/-- The resolved map a successful call returns contains the requested key,
its entries are all old or reachable from the requested key, and every entry
the run added has all its declared child keys resolved in the map. -/
theorem resolvePkg_reach (env : ResolverEnv) :
    ∀ (fuel : Nat) (visiting : List PkgKey)
      (resolved : List (PkgKey × ResolvedPackage)) (k s : String)
      (c : Option DependencySpec) (out : List (PkgKey × ResolvedPackage)),
      resolvePkg env fuel visiting resolved k s c = .ok out →
      (((k, s) : PkgKey) ∈ resolvedKeys out) ∧
      (∀ p ∈ out, p ∈ resolved ∨ ReachIn env out (k, s) p.1) ∧
      (∀ p ∈ out, p ∉ resolved →
        ∀ q ∈ childKeys env p.1.1 p.2.path, q ∈ resolvedKeys out) := by
  intro fuel
  induction fuel with
  | zero =>
    intro visiting resolved k s c out h
    rw [resolvePkg] at h
    exact absurd h (by simp)
  | succ fuel ih =>
    intro visiting resolved k s c out h
    rcases resolvePkg_ok_inv env fuel visiting resolved k s c out h with
      ⟨hsome, hout⟩ | ⟨hnone, hnvis, cands, best, tail, resolvedAfter, hf,
        ⟨ps, hcp⟩, hms, hfold, hout⟩
    · subst hout
      refine ⟨by simpa [resolvedKeys] using mem_keys_of_lookup_isSome hsome,
        fun p hp => Or.inl hp, fun p hp hnp => absurd hp hnp⟩
    · have hfold_lemma : ∀ (dsl2 : List (String × DependencySpec))
          (acc out2 : List (PkgKey × ResolvedPackage)),
          dsl2.foldlM (fun a ds => resolvePkg env fuel ((k, s) :: visiting) a
            ds.1 ds.2.slug (some ds.2)) acc = .ok out2 →
          (∀ p ∈ acc, p ∈ out2) ∧
          (∀ p ∈ out2, p ∈ acc ∨
            ∃ ds ∈ dsl2, ReachIn env out2 (ds.1, ds.2.slug) p.1) ∧
          (∀ ds ∈ dsl2, ((ds.1, ds.2.slug) : PkgKey) ∈ resolvedKeys out2) ∧
          (∀ p ∈ out2, p ∉ acc →
            ∀ q ∈ childKeys env p.1.1 p.2.path, q ∈ resolvedKeys out2) := by
        intro dsl2
        induction dsl2 with
        | nil =>
          intro acc out2 hh
          rw [List.foldlM_nil] at hh
          have : acc = out2 := by simpa [pure, Except.pure] using hh
          subst this
          exact ⟨fun p hp => hp, fun p hp => Or.inl hp,
            fun ds hds => absurd hds (by simp),
            fun p hp hnp => absurd hp hnp⟩
        | cons d rest ihd =>
          intro acc out2 hh
          rw [List.foldlM_cons] at hh
          cases hstep : resolvePkg env fuel ((k, s) :: visiting) acc
              d.1 d.2.slug (some d.2) with
          | error e =>
            rw [hstep, except_bind_err] at hh
            exact absurd hh (by simp)
          | ok mid =>
            rw [hstep, except_bind_ok] at hh
            obtain ⟨hdkey, hmidreach, hmidchild⟩ :=
              ih ((k, s) :: visiting) acc d.1 d.2.slug (some d.2) mid hstep
            have hmono : ∀ p ∈ acc, p ∈ mid :=
              (resolvePkg_runGrowth env fuel ((k, s) :: visiting) acc
                d.1 d.2.slug (some d.2) mid hstep).1
            obtain ⟨hmono2, hreach2, hkeys2, hchild2⟩ := ihd mid out2 hh
            refine ⟨fun p hp => hmono2 p (hmono p hp), ?_, ?_, ?_⟩
            · intro p hp
              rcases hreach2 p hp with h1 | ⟨ds, hds, hr⟩
              · rcases hmidreach p h1 with h2 | h2
                · exact Or.inl h2
                · exact Or.inr ⟨d, List.mem_cons_self _ _,
                    reachIn_mono env (fun x hx => hmono2 x hx) h2⟩
              · exact Or.inr ⟨ds, List.mem_cons_of_mem _ hds, hr⟩
            · intro ds hds
              rcases List.mem_cons.mp hds with h1 | h1
              · rw [h1]
                exact resolvedKeys_subset hmono2 _ hdkey
              · exact hkeys2 ds h1
            · intro p hp hnp
              by_cases hmid : p ∈ mid
              · intro q hq
                exact resolvedKeys_subset hmono2 _ (hmidchild p hmid hnp q hq)
              · exact hchild2 p hp hmid
      obtain ⟨hfmono, hfreach, hfkeys, hfchild⟩ :=
        hfold_lemma (env.deps k best.2.1) resolved resolvedAfter hfold
      set rpbest : ResolvedPackage :=
        { kind := k, slug := s, version := best.1,
          path := best.2.1, source := best.2.2 } with hrpbest
      have hlast : (((k, s), rpbest) : PkgKey × ResolvedPackage) ∈ out := by
        rw [hout]
        simp
      have hrasub : ∀ p ∈ resolvedAfter, p ∈ out := by
        intro p hp
        rw [hout]
        exact List.mem_append.mpr (Or.inl hp)
      have hedge : ∀ ds ∈ env.deps k best.2.1,
          ReachIn env out (k, s) (ds.1, ds.2.slug) := by
        intro ds hds
        refine ReachIn.step _ (ReachIn.refl (k, s)) hlast ?_
        exact List.mem_map.mpr ⟨ds, hds, rfl⟩
      refine ⟨?_, ?_, ?_⟩
      · rw [hout]
        simp [resolvedKeys]
      · intro p hp
        rw [hout] at hp
        rcases List.mem_append.mp hp with h1 | h1
        · rcases hfreach p h1 with h2 | ⟨ds, hds, hr⟩
          · exact Or.inl h2
          · refine Or.inr (reachIn_trans env (hedge ds hds) ?_)
            exact reachIn_mono env hrasub hr
        · have : p = (((k, s), rpbest) : PkgKey × ResolvedPackage) := by
            simpa using h1
          rw [this]
          exact Or.inr (ReachIn.refl (k, s))
      · intro p hp hnp
        rw [hout] at hp
        rcases List.mem_append.mp hp with h1 | h1
        · intro q hq
          have := hfchild p h1 hnp q hq
          exact resolvedKeys_subset hrasub _ this
        · have hpe : p = (((k, s), rpbest) : PkgKey × ResolvedPackage) := by
            simpa using h1
          intro q hq
          rw [hpe] at hq
          have hq2 : q ∈ childKeys env k best.2.1 := hq
          rcases List.mem_map.mp hq2 with ⟨ds, hds, hdsk⟩
          rw [← hdsk]
          exact resolvedKeys_subset hrasub _ (hfkeys ds hds)

/-- C2: on every index and manifest configuration where resolve succeeds,
the dependencies list carries exactly one entry per distinct (kind, slug) in
the transitive dependency closure of the root, excluding the root itself:
its keys are duplicate free, the root key is absent, and a key appears iff it
is reachable from the root through the declared dependency edges of the
resolved entries and differs from the root. -/
theorem resolve_dependencies_closure_dedup :
    ∀ (env : ResolverEnv) (slug : String) (kindOpt versionOpt : Option String)
      (res : ResolveResult),
      resolveWithIndex env slug kindOpt versionOpt = .ok res →
      (depKeys res).Nodup ∧
      (((res.kind, res.slug) : PkgKey) ∉ depKeys res) ∧
      (∀ q : PkgKey, q ∈ depKeys res ↔
        (ReachIn env (outMap res) (res.kind, res.slug) q ∧
          q ≠ (res.kind, res.slug))) := by
  intro env slug kindOpt versionOpt res h
  rw [resolveWithIndex] at h
  cases hk : resolveKind env slug kindOpt with
  | error e => rw [hk, except_bind_err] at h; exact absurd h (by simp)
  | ok kind =>
    rw [hk, except_bind_ok] at h
    cases hcr : checkRoot kind slug (indexGet env (kind, slug)) versionOpt with
    | error e => rw [hcr, except_bind_err] at h; exact absurd h (by simp)
    | ok u =>
      rw [hcr, except_bind_ok] at h
      cases hrp : resolvePkg env (resolveFuel env) [] [] kind slug
          (versionOpt.map fun v => DependencySpec.mk slug .eq (some v)) with
      | error e => rw [hrp, except_bind_err] at h; exact absurd h (by simp)
      | ok rm =>
        rw [hrp, except_bind_ok] at h
        cases hlook : rm.lookup (kind, slug) with
        | none => rw [hlook] at h; exact absurd h (by simp)
        | some root_pkg =>
          rw [hlook] at h
          have hres : res = mkResolveResult root_pkg
              ((rm.eraseP (fun p => p.1 == (kind, slug))).map Prod.snd) := by
            simpa using h.symm
          obtain ⟨hgrow1, hgrow2, hgrow3⟩ :=
            resolvePkg_runGrowth env (resolveFuel env) [] [] kind slug _ rm hrp
          have hndrm : (resolvedKeys rm).Nodup :=
            hgrow3 (by simp [resolvedKeys])
          have hfields : ∀ p ∈ rm, p.2.kind = p.1.1 ∧ p.2.slug = p.1.2 := by
            intro p hp
            rcases hgrow2 p hp with h1 | ⟨-, -, hf1, hf2⟩
            · simp at h1
            · exact ⟨hf1, hf2⟩
          obtain ⟨hroot, hsound0, hclosed⟩ :=
            resolvePkg_reach env (resolveFuel env) [] [] kind slug _ rm hrp
          have hsound : ∀ p ∈ rm, ReachIn env rm (kind, slug) p.1 := by
            intro p hp
            rcases hsound0 p hp with h1 | h1
            · simp at h1
            · exact h1
          have hrootmem : (((kind, slug), root_pkg) :
              PkgKey × ResolvedPackage) ∈ rm := lookup_mem hlook
          obtain ⟨hrk0, hrs0⟩ := hfields _ hrootmem
          have hrk : root_pkg.kind = kind := hrk0
          have hrs : root_pkg.slug = slug := hrs0
          obtain ⟨a, l1, l2, hl1, hpa, hrmeq, herase⟩ :=
            @List.exists_of_eraseP _
              (fun p => p.1 == ((kind, slug) : PkgKey)) _ _
              hrootmem (by simp)
          have hak : a.1 = ((kind, slug) : PkgKey) := by simpa using hpa
          have hl1none : l1.lookup ((kind, slug) : PkgKey) = none := by
            rw [List.lookup_eq_none_iff]
            intro p hp
            have hpne : p.1 ≠ ((kind, slug) : PkgKey) := fun hx =>
              hl1 p hp (by simp [hx])
            simp only [bne_iff_ne, ne_eq]
            exact fun hx => hpne hx.symm
          have ha2 : a.2 = root_pkg := by
            have : rm.lookup ((kind, slug) : PkgKey) = some a.2 := by
              rw [hrmeq, lookup_append_of_none hl1none, ← hak]
              obtain ⟨ak, av⟩ := a
              simp [List.lookup]
            rw [hlook] at this
            simpa using this.symm
          have haeq : a = (((kind, slug), root_pkg) :
              PkgKey × ResolvedPackage) := by
            rw [← hak, ← ha2]
          have hkeysrm : resolvedKeys rm
              = resolvedKeys l1 ++ ((kind, slug) : PkgKey) :: resolvedKeys l2 := by
            rw [hrmeq, haeq]
            simp [resolvedKeys]
          have hmemerase : ∀ p : PkgKey × ResolvedPackage,
              p ∈ l1 ++ l2 → p ∈ rm := by
            intro p hp
            rw [hrmeq]
            rcases List.mem_append.mp hp with h1 | h1
            · exact List.mem_append.mpr (Or.inl h1)
            · exact List.mem_append.mpr (Or.inr (List.mem_cons_of_mem _ h1))
          have hdepkeys : depKeys res = resolvedKeys (l1 ++ l2) := by
            rw [hres]
            show ((rm.eraseP (fun p => p.1 == ((kind, slug) : PkgKey))).map
              Prod.snd).map (fun r => (r.kind, r.slug)) = resolvedKeys (l1 ++ l2)
            rw [herase, List.map_map, resolvedKeys]
            apply List.map_congr_left
            intro p hp
            obtain ⟨hf1, hf2⟩ := hfields p (hmemerase p hp)
            show ((p.2.kind, p.2.slug) : PkgKey) = p.1
            rw [hf1, hf2]
          have hnd12 : (resolvedKeys l1 ++ resolvedKeys l2).Nodup := by
            have hsl : (resolvedKeys l1 ++ resolvedKeys l2).Sublist
                (resolvedKeys l1 ++ ((kind, slug) : PkgKey) :: resolvedKeys l2) :=
              List.Sublist.append_left (List.sublist_cons_self _ _) _
            exact hsl.nodup (hkeysrm ▸ hndrm)
          have hknotin : ((kind, slug) : PkgKey) ∉
              resolvedKeys l1 ++ resolvedKeys l2 := by
            have hnd2 := hkeysrm ▸ hndrm
            rcases List.nodup_append.mp hnd2 with ⟨-, hndc, hdisj⟩
            intro hx
            rcases List.mem_append.mp hx with h1 | h1
            · exact hdisj h1 (List.mem_cons_self _ _)
            · exact (List.nodup_cons.mp hndc).1 h1
          have hkeys12 : resolvedKeys (l1 ++ l2)
              = resolvedKeys l1 ++ resolvedKeys l2 := by simp [resolvedKeys]
          have hreskey : ((res.kind, res.slug) : PkgKey) = (kind, slug) := by
            rw [hres]
            show ((root_pkg.kind, root_pkg.slug) : PkgKey) = (kind, slug)
            rw [hrk, hrs]
          have houtmap : outMap res
              = (((kind, slug), root_pkg) : PkgKey × ResolvedPackage)
                :: (l1 ++ l2) := by
            rw [outMap]
            have h1 : ((res.kind, res.slug),
                (⟨res.kind, res.slug, res.version, res.path, res.source⟩ :
                  ResolvedPackage))
                = (((kind, slug), root_pkg) : PkgKey × ResolvedPackage) := by
              rw [hres]
              show (((root_pkg.kind, root_pkg.slug) : PkgKey), root_pkg)
                = (((kind, slug), root_pkg) : PkgKey × ResolvedPackage)
              rw [hrk, hrs]
            rw [h1]
            have h2 : res.dependencies.map (fun r => ((r.kind, r.slug), r))
                = l1 ++ l2 := by
              rw [hres]
              show ((rm.eraseP (fun p => p.1 == ((kind, slug) : PkgKey))).map
                Prod.snd).map (fun r => ((r.kind, r.slug), r)) = l1 ++ l2
              rw [herase, List.map_map]
              have : ∀ p : PkgKey × ResolvedPackage, p ∈ l1 ++ l2 →
                  ((fun r : ResolvedPackage => ((r.kind, r.slug), r)) ∘
                    Prod.snd) p = p := by
                intro p hp
                obtain ⟨hf1, hf2⟩ := hfields p (hmemerase p hp)
                show (((p.2.kind, p.2.slug) : PkgKey), p.2) = p
                rw [hf1, hf2]
              rw [List.map_congr_left this, List.map_id']
            rw [h2]
          have houtmem : ∀ x : PkgKey × ResolvedPackage,
              x ∈ outMap res ↔ x ∈ rm := by
            intro x
            rw [houtmap, hrmeq, haeq]
            exact (List.perm_middle.mem_iff).symm
          have hcompl : ∀ q : PkgKey, ReachIn env rm (kind, slug) q →
              q ∈ resolvedKeys rm := by
            intro q hq
            induction hq with
            | refl => exact hroot
            | step rp hr hm hc ihq => exact hclosed _ hm (by simp) _ hc
          rw [hdepkeys, hkeys12, hreskey]
          refine ⟨hnd12, hknotin, ?_⟩
          intro q
          constructor
          · intro hq
            have hq12 : q ∈ resolvedKeys (l1 ++ l2) := by
              rw [hkeys12]; exact hq
            rcases List.mem_map.mp hq12 with ⟨p, hp, hpk⟩
            refine ⟨?_, ?_⟩
            · refine reachIn_mono env (fun x hx => (houtmem x).mpr hx) ?_
              rw [← hpk]
              exact hsound p (hmemerase p hp)
            · intro hx
              rw [hx] at hq
              exact hknotin hq
          · rintro ⟨hr, hne⟩
            have hr2 : ReachIn env rm (kind, slug) q :=
              reachIn_mono env (fun x hx => (houtmem x).mp hx) hr
            have hq2 := hcompl q hr2
            rw [hkeysrm] at hq2
            rcases List.mem_append.mp hq2 with h1 | h1
            · exact List.mem_append.mpr (Or.inl h1)
            · rcases List.mem_cons.mp h1 with h2 | h2
              · exact absurd h2 hne
              · exact List.mem_append.mpr (Or.inr h2)

/-- Witness for C2 on the concrete diamond: resolving role a yields exactly
the three dependency entries b, c and d, with d collapsed to one entry, and
the theorem's dedup and closure conclusions hold there. -/
theorem resolve_dependencies_closure_dedup_witness :
    resolveWithIndex envDiamond "a" (some "role") none = .ok diamondRes ∧
    depKeys diamondRes = [("skill", "d"), ("skill", "b"), ("skill", "c")] ∧
    ((depKeys diamondRes).Nodup ∧
      (((diamondRes.kind, diamondRes.slug) : PkgKey) ∉ depKeys diamondRes) ∧
      (∀ q : PkgKey, q ∈ depKeys diamondRes ↔
        (ReachIn envDiamond (outMap diamondRes)
          (diamondRes.kind, diamondRes.slug) q ∧
          q ≠ (diamondRes.kind, diamondRes.slug)))) :=
  ⟨by rfl, by rfl,
    resolve_dependencies_closure_dedup envDiamond "a" (some "role") none
      diamondRes (by rfl)⟩


/-! ## Index construction lemmas for the scope-precedence claim -/

theorem indexFind_append_slot (idx : Index) (k0 key : PkgKey) :
    indexFind (idx ++ [(k0, [])]) key = indexFind idx key := by
  show ((idx ++ [(k0, [])]).lookup key).getD [] = (idx.lookup key).getD []
  rw [List.lookup_append]
  cases h : idx.lookup key with
  | some l => rfl
  | none =>
    rw [List.lookup_cons]
    cases hk : (key == k0) with
    | true => rfl
    | false => rfl

theorem lookup_indexAppend (idx : Index) (k0 k : PkgKey) (e : IndexEntry3) :
    (indexAppend idx k0 e).lookup k =
      if k = k0 then (idx.lookup k).map (fun l => l ++ [e])
      else idx.lookup k := by
  induction idx with
  | nil => by_cases hk : k = k0 <;> simp [indexAppend, hk]
  | cons p idx ih =>
    obtain ⟨pk, pv⟩ := p
    by_cases hp : pk = k0
    · subst hp
      by_cases hk : k = pk
      · subst hk
        simp [indexAppend, List.lookup_cons]
      · have hb : (k == pk) = false := by simp [hk]
        rw [show indexAppend ((pk, pv) :: idx) pk e
            = (pk, pv ++ [e]) :: indexAppend idx pk e from by simp [indexAppend]]
        simp [List.lookup_cons, hb, hk, ih]
    · by_cases hk : k = pk
      · subst hk
        simp [indexAppend, List.lookup_cons, hp]
      · have hb : (k == pk) = false := by simp [hk]
        rw [show indexAppend ((pk, pv) :: idx) k0 e
            = (pk, pv) :: indexAppend idx k0 e from by simp [indexAppend, hp]]
        simp [List.lookup_cons, hb, ih]

theorem idx1_find (idx : Index) (k0 key : PkgKey) :
    indexFind (if (idx.lookup k0).isSome then idx else idx ++ [(k0, [])]) key
      = indexFind idx key := by
  split
  · rfl
  · exact indexFind_append_slot idx k0 key

theorem idx1_lookup_isSome (idx : Index) (k0 : PkgKey) :
    ((if (idx.lookup k0).isSome then idx
      else idx ++ [(k0, [])]).lookup k0).isSome = true := by
  split
  · assumption
  · next h =>
    rw [List.lookup_append]
    rw [Option.not_isSome_iff_eq_none.mp h]
    simp [List.lookup_cons]

theorem indexFind_addDirEntry (kind scope root sub : String) (idx : Index)
    (entry : String × Bool) (key : PkgKey) :
    indexFind (addDirEntry kind scope root sub idx entry) key
        = indexFind idx key ∨
    ∃ v path, v ∉ indexVersions idx key ∧
      indexFind (addDirEntry kind scope root sub idx entry) key
        = indexFind idx key ++ [(v, path, scope)] := by
  simp only [addDirEntry]
  split
  · exact Or.inl rfl
  · split
    · exact Or.inl rfl
    · next pkg_slug pkg_version heq =>
      have hfind1 : ∀ key' : PkgKey, indexFind
          (if (idx.lookup ((kind, pkg_slug) : PkgKey)).isSome then idx
           else idx ++ [((kind, pkg_slug), [])]) key' = indexFind idx key' :=
        fun key' => idx1_find idx (kind, pkg_slug) key'
      have hsome1 := idx1_lookup_isSome idx (kind, pkg_slug)
      set idx1 := if (idx.lookup ((kind, pkg_slug) : PkgKey)).isSome then idx
        else idx ++ [((kind, pkg_slug), [])] with hidx1
      split
      · exact Or.inl (hfind1 key)
      · next hcont =>
        obtain ⟨l, hl⟩ := Option.isSome_iff_exists.mp hsome1
        by_cases hkey : key = ((kind, pkg_slug) : PkgKey)
        · subst hkey
          have hfl : indexFind idx ((kind, pkg_slug) : PkgKey) = l := by
            rw [← hfind1 ((kind, pkg_slug) : PkgKey)]
            show (idx1.lookup ((kind, pkg_slug) : PkgKey)).getD [] = l
            rw [hl]
            rfl
          refine Or.inr ⟨pkg_version,
            root ++ "/" ++ sub ++ "/" ++ entry.1, ?_, ?_⟩
          · intro hmem
            apply hcont
            have hv : pkg_version ∈ indexVersions idx1 ((kind, pkg_slug) :
                PkgKey) := by
              rw [indexVersions, hfind1]
              exact hmem
            exact List.elem_iff.mpr hv
          · show ((indexAppend idx1 ((kind, pkg_slug) : PkgKey)
                (pkg_version, root ++ "/" ++ sub ++ "/" ++ entry.1,
                  scope)).lookup ((kind, pkg_slug) : PkgKey)).getD [] = _
            rw [lookup_indexAppend, if_pos rfl, hl]
            show l ++ [(pkg_version, root ++ "/" ++ sub ++ "/" ++ entry.1,
              scope)] = _
            rw [hfl]
        · refine Or.inl ?_
          show ((indexAppend idx1 ((kind, pkg_slug) : PkgKey)
              (pkg_version, root ++ "/" ++ sub ++ "/" ++ entry.1,
                scope)).lookup key).getD [] = _
          rw [lookup_indexAppend, if_neg hkey]
          exact hfind1 key

theorem addDirEntry_complete (kind scope root sub : String) (idx : Index)
    (entry : String × Bool) (key : PkgKey) (v : String)
    (he : entry.2 = true)
    (hp : parse_dir_name entry.1 = some (key.2, v))
    (hk : key.1 = kind) :
    v ∈ indexVersions (addDirEntry kind scope root sub idx entry) key := by
  have hkeq : ((kind, key.2) : PkgKey) = key := by
    rw [← hk]
  simp only [addDirEntry]
  rw [if_neg (by simp [he] : ¬((!entry.2) = true)), hp]
  dsimp only
  have hfind1 : ∀ key' : PkgKey, indexFind
      (if (idx.lookup ((kind, key.2) : PkgKey)).isSome then idx
       else idx ++ [((kind, key.2), [])]) key' = indexFind idx key' :=
    fun key' => idx1_find idx (kind, key.2) key'
  have hsome1 := idx1_lookup_isSome idx (kind, key.2)
  set idx1 := if (idx.lookup ((kind, key.2) : PkgKey)).isSome then idx
    else idx ++ [((kind, key.2), [])] with hidx1
  split
  · next hcont =>
    rw [← hkeq]
    exact List.elem_iff.mp hcont
  · next hcont =>
    obtain ⟨l, hl⟩ := Option.isSome_iff_exists.mp hsome1
    rw [← hkeq]
    show v ∈ (((indexAppend idx1 ((kind, key.2) : PkgKey)
        (v, root ++ "/" ++ sub ++ "/" ++ entry.1, scope)).lookup
          ((kind, key.2) : PkgKey)).getD []).map Prod.fst
    rw [lookup_indexAppend, if_pos rfl, hl]
    show v ∈ (l ++ [(v, root ++ "/" ++ sub ++ "/" ++ entry.1, scope)]).map
      Prod.fst
    simp

theorem dirVersions_mem (es : List (String × Bool)) (kind : String)
    (key : PkgKey) (v : String) (h : v ∈ dirVersions (some es) kind key) :
    ∃ entry ∈ es, entry.2 = true ∧
      parse_dir_name entry.1 = some (key.2, v) ∧ key.1 = kind := by
  rw [dirVersions] at h
  rcases List.mem_filterMap.mp h with ⟨entry, hmem, hg⟩
  have h2 := List.mem_filter.mp hmem
  refine ⟨entry, h2.1, h2.2, ?_⟩
  cases hq : parse_dir_name entry.1 with
  | none => rw [hq] at hg; simp at hg
  | some pr =>
    obtain ⟨slug, vv⟩ := pr
    rw [hq] at hg
    dsimp only at hg
    split at hg
    · next hkk =>
      simp only [Option.some.injEq] at hg
      subst hg
      subst hkk
      exact ⟨rfl, rfl⟩
    · simp at hg

theorem indexVersions_mono_addDirEntry (kind scope root sub : String)
    (idx : Index) (entry : String × Bool) (key : PkgKey) (v : String)
    (h : v ∈ indexVersions idx key) :
    v ∈ indexVersions (addDirEntry kind scope root sub idx entry) key := by
  rcases indexFind_addDirEntry kind scope root sub idx entry key with
    h1 | ⟨w, p, hw, h1⟩
  · rw [indexVersions, h1]
    exact h
  · rw [indexVersions, h1, List.map_append]
    exact List.mem_append.mpr (Or.inl h)

theorem indexVersions_nodup_addDirEntry (kind scope root sub : String)
    (idx : Index) (entry : String × Bool) (key : PkgKey)
    (h : (indexVersions idx key).Nodup) :
    (indexVersions (addDirEntry kind scope root sub idx entry) key).Nodup := by
  rcases indexFind_addDirEntry kind scope root sub idx entry key with
    h1 | ⟨w, p, hw, h1⟩
  · rw [indexVersions, h1]
    exact h
  · rw [indexVersions, h1, List.map_append]
    refine List.Nodup.append h (by simp) ?_
    intro x hx hx2
    simp at hx2
    subst hx2
    exact hw hx

theorem indexFind_growth_addDirEntry (kind scope root sub : String)
    (idx : Index) (entry : String × Bool) (key : PkgKey) :
    ∀ e0 ∈ indexFind (addDirEntry kind scope root sub idx entry) key,
      e0 ∈ indexFind idx key ∨
        (e0.2.2 = scope ∧ e0.1 ∉ indexVersions idx key) := by
  intro e0 he0
  rcases indexFind_addDirEntry kind scope root sub idx entry key with
    h1 | ⟨w, p, hw, h1⟩
  · rw [h1] at he0
    exact Or.inl he0
  · rw [h1] at he0
    rcases List.mem_append.mp he0 with h2 | h2
    · exact Or.inl h2
    · simp only [List.mem_singleton] at h2
      subst h2
      exact Or.inr ⟨rfl, hw⟩

theorem scanFold_mono (kind scope root sub : String)
    (es : List (String × Bool)) :
    ∀ (idx : Index) (key : PkgKey) (v : String),
      v ∈ indexVersions idx key →
      v ∈ indexVersions (es.foldl (addDirEntry kind scope root sub) idx) key := by
  induction es with
  | nil => intro idx key v h; exact h
  | cons e es ih =>
    intro idx key v h
    rw [List.foldl_cons]
    exact ih _ key v
      (indexVersions_mono_addDirEntry kind scope root sub idx e key v h)

theorem scanFold_nodup (kind scope root sub : String)
    (es : List (String × Bool)) :
    ∀ (idx : Index) (key : PkgKey),
      (indexVersions idx key).Nodup →
      (indexVersions (es.foldl (addDirEntry kind scope root sub) idx)
        key).Nodup := by
  induction es with
  | nil => intro idx key h; exact h
  | cons e es ih =>
    intro idx key h
    rw [List.foldl_cons]
    exact ih _ key
      (indexVersions_nodup_addDirEntry kind scope root sub idx e key h)

theorem scanFold_growth (kind scope root sub : String)
    (es : List (String × Bool)) :
    ∀ (idx : Index) (key : PkgKey),
      ∀ e0 ∈ indexFind (es.foldl (addDirEntry kind scope root sub) idx) key,
        e0 ∈ indexFind idx key ∨
          (e0.2.2 = scope ∧ e0.1 ∉ indexVersions idx key) := by
  induction es with
  | nil => intro idx key e0 h; exact Or.inl h
  | cons e es ih =>
    intro idx key e0 h
    rw [List.foldl_cons] at h
    rcases ih _ key e0 h with h1 | ⟨hs, hv⟩
    · rcases indexFind_growth_addDirEntry kind scope root sub idx e key e0 h1
        with h2 | ⟨hs, hv⟩
      · exact Or.inl h2
      · exact Or.inr ⟨hs, hv⟩
    · refine Or.inr ⟨hs, fun hx => hv ?_⟩
      exact indexVersions_mono_addDirEntry kind scope root sub idx e key e0.1 hx

theorem scanFold_complete (kind scope root sub : String)
    (es : List (String × Bool)) :
    ∀ (idx : Index) (key : PkgKey) (v : String) (entry : String × Bool),
      entry ∈ es → entry.2 = true →
      parse_dir_name entry.1 = some (key.2, v) → key.1 = kind →
      v ∈ indexVersions (es.foldl (addDirEntry kind scope root sub) idx) key := by
  induction es with
  | nil => intro idx key v entry hmem _ _ _; simp at hmem
  | cons e es ih =>
    intro idx key v entry hmem he hp hk
    rw [List.foldl_cons]
    rcases List.mem_cons.mp hmem with h1 | h1
    · subst h1
      exact scanFold_mono kind scope root sub es _ key v
        (addDirEntry_complete kind scope root sub idx entry key v he hp hk)
    · exact ih _ key v entry h1 he hp hk

theorem scanKind_mono (kind scope root sub : String)
    (entries : Option (List (String × Bool))) (idx : Index) (key : PkgKey)
    (v : String) (h : v ∈ indexVersions idx key) :
    v ∈ indexVersions (scanKind kind scope root sub entries idx) key := by
  cases entries with
  | none => exact h
  | some es => exact scanFold_mono kind scope root sub es idx key v h

theorem scanKind_nodup (kind scope root sub : String)
    (entries : Option (List (String × Bool))) (idx : Index) (key : PkgKey)
    (h : (indexVersions idx key).Nodup) :
    (indexVersions (scanKind kind scope root sub entries idx) key).Nodup := by
  cases entries with
  | none => exact h
  | some es => exact scanFold_nodup kind scope root sub es idx key h

theorem scanKind_growth (kind scope root sub : String)
    (entries : Option (List (String × Bool))) (idx : Index) (key : PkgKey) :
    ∀ e0 ∈ indexFind (scanKind kind scope root sub entries idx) key,
      e0 ∈ indexFind idx key ∨
        (e0.2.2 = scope ∧ e0.1 ∉ indexVersions idx key) := by
  cases entries with
  | none => intro e0 h; exact Or.inl h
  | some es => exact scanFold_growth kind scope root sub es idx key

theorem scanKind_complete (kind scope root sub : String)
    (entries : Option (List (String × Bool))) (idx : Index) (key : PkgKey)
    (v : String) (h : v ∈ dirVersions entries kind key) :
    v ∈ indexVersions (scanKind kind scope root sub entries idx) key := by
  cases entries with
  | none => simp [dirVersions] at h
  | some es =>
    obtain ⟨entry, hmem, he, hp, hk⟩ := dirVersions_mem es kind key v h
    exact scanFold_complete kind scope root sub es idx key v entry hmem he hp hk

theorem build_index_facts (lr gr : String) (lfs gfs : ScopeFS) (key : PkgKey) :
    (indexVersions (build_index lr gr lfs gfs) key).Nodup ∧
    (∀ v ∈ scopeVersions lfs key,
      v ∈ indexVersions (build_index lr gr lfs gfs) key) ∧
    (∀ e ∈ indexFind (build_index lr gr lfs gfs) key,
      e.1 ∈ scopeVersions lfs key → e.2.2 = "local") := by
  have hb : build_index lr gr lfs gfs
      = scanKind "role" "global" gr "roles" gfs.roles
          (scanKind "skill" "global" gr "skills" gfs.skills
            (scanKind "role" "local" lr "roles" lfs.roles
              (scanKind "skill" "local" lr "skills" lfs.skills []))) := rfl
  set i1 := scanKind "skill" "local" lr "skills" lfs.skills ([] : Index)
    with hi1
  set i2 := scanKind "role" "local" lr "roles" lfs.roles i1 with hi2
  set i3 := scanKind "skill" "global" gr "skills" gfs.skills i2 with hi3
  set i4 := scanKind "role" "global" gr "roles" gfs.roles i3 with hi4
  have hnil : indexFind ([] : Index) key = [] := rfl
  have hA : ∀ e ∈ indexFind i2 key, e.2.2 = "local" := by
    intro e he
    rcases scanKind_growth "role" "local" lr "roles" lfs.roles i1 key e he with
      h1 | ⟨hs, -⟩
    · rcases scanKind_growth "skill" "local" lr "skills" lfs.skills [] key e h1
        with h2 | ⟨hs, -⟩
      · rw [hnil] at h2
        simp at h2
      · exact hs
    · exact hs
  have hB : ∀ v ∈ scopeVersions lfs key, v ∈ indexVersions i2 key := by
    intro v hv
    rcases List.mem_append.mp hv with h1 | h1
    · exact scanKind_mono "role" "local" lr "roles" lfs.roles i1 key v
        (scanKind_complete "skill" "local" lr "skills" lfs.skills [] key v h1)
    · exact scanKind_complete "role" "local" lr "roles" lfs.roles i1 key v h1
  have hB3 : ∀ v ∈ scopeVersions lfs key, v ∈ indexVersions i3 key := by
    intro v hv
    exact scanKind_mono "skill" "global" gr "skills" gfs.skills i2 key v
      (hB v hv)
  have hC : (indexVersions i4 key).Nodup := by
    refine scanKind_nodup _ _ _ _ _ _ _
      (scanKind_nodup _ _ _ _ _ _ _
        (scanKind_nodup _ _ _ _ _ _ _
          (scanKind_nodup _ _ _ _ _ _ _ ?_)))
    show (indexVersions ([] : Index) key).Nodup
    exact List.nodup_nil
  have hB4 : ∀ v ∈ scopeVersions lfs key, v ∈ indexVersions i4 key := by
    intro v hv
    exact scanKind_mono "role" "global" gr "roles" gfs.roles i3 key v
      (hB3 v hv)
  have hE : ∀ e ∈ indexFind i4 key,
      e.1 ∈ scopeVersions lfs key → e.2.2 = "local" := by
    intro e he hsc
    rcases scanKind_growth "role" "global" gr "roles" gfs.roles i3 key e he
      with h1 | ⟨-, hv⟩
    · rcases scanKind_growth "skill" "global" gr "skills" gfs.skills i2 key e
        h1 with h2 | ⟨-, hv⟩
      · exact hA e h2
      · exact absurd (hB e.1 hsc) hv
    · exact absurd (hB3 e.1 hsc) hv
  rw [hb]
  exact ⟨hC, hB4, hE⟩

/-- C7: _build_index gives local scope precedence: for every pair of scope
listings the built index holds duplicate-free version lists, records every
version present in the local scope, and stores any version present in the
local scope only with source "local" (a later global entry with an
already-seen version is skipped); concretely, with gw installed at 1.0.0 in
both scopes resolution reports ("1.0.0", "local"), and with 2.0.0 additionally
installed globally it reports ("2.0.0", "global"). -/
theorem build_index_local_precedence_and_resolution :
    (∀ (lr gr : String) (lfs gfs : ScopeFS) (key : PkgKey),
      (indexVersions (build_index lr gr lfs gfs) key).Nodup ∧
      (∀ v ∈ scopeVersions lfs key,
        v ∈ indexVersions (build_index lr gr lfs gfs) key) ∧
      (∀ e ∈ indexFind (build_index lr gr lfs gfs) key,
        e.1 ∈ scopeVersions lfs key → e.2.2 = "local")) ∧
    (Except.map (fun r : ResolveResult => (r.version, r.source))
      (resolve "L" "G" lfsCross gfsSame noDeps "gw" (some "skill") none)
      = .ok ("1.0.0", "local")) ∧
    (Except.map (fun r : ResolveResult => (r.version, r.source))
      (resolve "L" "G" lfsCross gfsCross noDeps "gw" (some "skill") none)
      = .ok ("2.0.0", "global")) :=
  ⟨fun lr gr lfs gfs key => build_index_facts lr gr lfs gfs key, rfl, rfl⟩

/-- Witness for C7 on the cross-scope instance: version 1.0.0 sits in the
local scope listing, lands in the built index, and its sole index entry
carries source "local", with the version list duplicate free. -/
theorem build_index_local_precedence_and_resolution_witness :
    ("1.0.0" ∈ scopeVersions lfsCross ("skill", "gw")) ∧
    ("1.0.0" ∈ indexVersions (build_index "L" "G" lfsCross gfsSame)
      ("skill", "gw")) ∧
    ((("1.0.0", "L/skills/gw-1.0.0", "local") : IndexEntry3) ∈
      indexFind (build_index "L" "G" lfsCross gfsSame) ("skill", "gw")) ∧
    ((("1.0.0", "L/skills/gw-1.0.0", "local") : IndexEntry3).2.2 = "local") ∧
    (indexVersions (build_index "L" "G" lfsCross gfsSame)
      ("skill", "gw")).Nodup :=
  have hscope : "1.0.0" ∈ scopeVersions lfsCross ("skill", "gw") := by decide
  have hfind : (("1.0.0", "L/skills/gw-1.0.0", "local") : IndexEntry3) ∈
      indexFind (build_index "L" "G" lfsCross gfsSame) ("skill", "gw") := by
    decide
  ⟨hscope,
   (build_index_local_precedence_and_resolution.1 "L" "G" lfsCross gfsSame
     ("skill", "gw")).2.1 "1.0.0" hscope,
   hfind,
   (build_index_local_precedence_and_resolution.1 "L" "G" lfsCross gfsSame
     ("skill", "gw")).2.2 ("1.0.0", "L/skills/gw-1.0.0", "local") hfind hscope,
   (build_index_local_precedence_and_resolution.1 "L" "G" lfsCross gfsSame
     ("skill", "gw")).1⟩

end Strawhub
